import Mathlib

/-!
# Verification of the ZotSearch inverted-index search engine

This file gives a shallow embedding, in Lean 4, of the core algorithms of the
ZotSearch repository (an inverted-index search engine over crawled web pages)
and proves or refutes the frozen specification claims about them.

The embedded components, each translated directly from the Python source:

* `pyTokenize`        — `InvertedIndex.tokenize`        (main.py)
* `tokenize_query`    — `Search.tokenize_query`         (search.py)
* `mergePartialIndexes` — `InvertedIndex.merge_partial_indexes` (main.py)
* `splitIndex` / `get_term_range` / `calculate_tfidf`   (split_index.py)
* `getTokenPostingsE` / `bucketForToken` / `searchRanked` (search.py)
* `custom_hash` / `isDuplicateCheck` / `processTokens`  (main.py)
* `appSearch`         — the `/search` handler           (app.py)

Modelling conventions, used throughout:

* Python strings are Lean `String`s; `str.lower()` is modelled character-wise
  with `Char.toLower` (the corpus data handled by the claims is ASCII, where
  the two coincide).
* Python `int` is `Nat` or `Int` as appropriate; Python `%` on `int` is
  `Int.emod` (both return a result in `[0, m)` for a positive modulus).
* Python `float` values (tf-idf scores) are modelled exactly: as real numbers
  (`ℝ`) where `math.log` is involved, and as rationals (`ℚ`) where only
  ring operations and comparisons occur.  Floating-point rounding is out of
  scope; every concrete comparison used below is far from any rounding
  boundary.
* A Python `set`/`frozenset`/`dict`-key-set is a `Finset`; where the program
  observably *iterates* a set (whose order CPython does not specify), the
  iteration order is an explicit parameter of the model, constrained to
  enumerate exactly that set.
* The Porter stemmer is an external library (`nltk`); both tokenizers are
  parameterised over an arbitrary `stem : String → String`.
-/

/-! ## Tokenization (main.py `InvertedIndex.tokenize`) -/

/-- Python `str.lower()`, modelled character-wise on the string's characters
(the two agree on ASCII data, and every token the index stores is ASCII
`[a-z0-9]+`). -/
def lowerData (s : String) : List Char := s.data.map Char.toLower

/-- Character class of the regex `[a-z0-9]+` used by `re.findall` in
`InvertedIndex.tokenize` (applied to the lowercased input). -/
def isTokChar (c : Char) : Bool := c.isLower || c.isDigit

/-- Accumulator worker for splitting a character list into the maximal runs
of characters satisfying `keep`, in left-to-right order.  With
`keep = isTokChar` this is `re.findall(r'[a-z0-9]+', s)`; with
`keep = (!·.isWhitespace)` it is Python's `str.split()`. -/
def runsAux (keep : Char → Bool) : List Char → List Char → List (List Char)
  | [], acc => if acc.isEmpty then [] else [acc.reverse]
  | c :: cs, acc =>
    if keep c then runsAux keep cs (c :: acc)
    else if acc.isEmpty then runsAux keep cs []
    else acc.reverse :: runsAux keep cs []

/-- All maximal runs of characters satisfying `keep`. -/
def splitRuns (keep : Char → Bool) (cs : List Char) : List (List Char) :=
  runsAux keep cs []

/-- `InvertedIndex.tokenize` (main.py): lowercase, extract the maximal
`[a-z0-9]+` matches in order, pass purely-digit tokens through unchanged and
apply the (externally supplied) stemmer to every other token. -/
def pyTokenize (stem : String → String) (content : String) : List String :=
  (splitRuns isTokChar (lowerData content)).map
    (fun t => if t.all Char.isDigit then String.mk t else stem (String.mk t))

/-- The `STOP_WORDS` constant of search.py, transcribed verbatim.  The source
contains the single element `"ours\tourselves"` (two words joined by a tab —
a typo in the source that the embedding reproduces faithfully). -/
def STOP_WORDS_LIST : List String :=
  ["a","about","above","after","again","against","all","am",
   "an","and","any","are","aren\x27t","as","at","be","because","been",
   "before","being","below","between","both","but","by","can\x27t",
   "cannot","could","couldn\x27t","did","didn\x27t","do","does","doesn\x27t",
   "doing","don\x27t","down","during","each","few","for","from","further",
   "had","hadn\x27t","has","hasn\x27t","have","haven\x27t","having","he","he\x27d",
   "he\x27ll","he\x27s","her","here","here\x27s","hers","herself","him","himself",
   "his","how","how\x27s","i","i\x27d","i\x27ll","i\x27m","i\x27ve","if","in","into","is",
   "isn\x27t","it","it\x27s","its","itself","let\x27s","me","more","most","mustn\x27t",
   "my","myself","no","nor","not","of","off","on","once","only","or","other",
   "ought","our","ours\tourselves","out","over","own","same","shan\x27t","she",
   "she\x27d","she\x27ll","she\x27s","should","shouldn\x27t","so","some","such","than",
   "that","that\x27s","the","their","theirs","them","themselves","then","there",
   "there\x27s","these","they","they\x27d","they\x27ll","they\x27re","they\x27ve","this","those",
   "through","to","too","under","until","up","very","was","wasn\x27t","we","we\x27d",
   "we\x27ll","we\x27re","we\x27ve","were","weren\x27t","what","what\x27s","when","when\x27s","where",
   "where\x27s","which","while","who","who\x27s","whom","why","why\x27s","with","won\x27t","would",
   "wouldn\x27t","you","you\x27d","you\x27ll","you\x27re","you\x27ve","your","yours","yourself","yourselves"]

/-- The stop-word set (a Python `set` literal in search.py). -/
def STOP_WORDS : Finset String := STOP_WORDS_LIST.toFinset

/-- Python `str.split()` on a character list: maximal runs of
non-whitespace characters. -/
def pySplitWs (cs : List Char) : List String :=
  (splitRuns (fun c => !c.isWhitespace) cs).map String.mk

/-- `Search.tokenize_query` (search.py):
`tokens = set(query.lower().split()) - STOP_WORDS`, then stem each element.
The result is a Python list in set-iteration order; since CPython does not
specify that order, the model returns the set of produced terms. -/
def tokenize_query (stem : String → String) (query : String) : Finset String :=
  ((pySplitWs (lowerData query)).toFinset \ STOP_WORDS).image stem

/-- Modelled from the spec: the query-time pipeline as claim C2 states it —
the index-time tokenizer `pyTokenize` applied to the query, then
deduplicated as a set and with the stop-words removed.  (This is the
claim-side definition, to be compared with `tokenize_query` above.) -/
def queryTokensClaimed (stem : String → String) (query : String) : Finset String :=
  (pyTokenize stem query).toFinset \ STOP_WORDS

/-- Modelled from the spec: the Porter stemmer is an external collaborator
(`nltk.stem.PorterStemmer`), outside this repository.  On every string this
file applies it to (`"ab"`, `"cd"`, `"ab-cd"`, and the words of the witness
queries below) the published Porter algorithm returns its input unchanged —
words of length at most two are never changed and none of the other inputs
matches any Porter suffix rule — so the identity function agrees with the
real stemmer on all of them. -/
def porter_stub : String → String := fun s => s

/-! ## Data model of the final index (main.py / split_index.py records)

A final-index or partial-index posting is `{"docid": …, "tf": …, "fields": […]}`.
The `fields` value is produced from a Python `set` (`list(set(...))` during the
merge), whose element order CPython does not specify, so it is modelled as a
`Finset String`. -/

/-- A posting of a partial or final index record. -/
structure MPost where
  docid : Nat
  tf : Nat
  fields : Finset String
deriving DecidableEq

/-- One JSON line of a partial or final index: a term and its postings. -/
structure PRec where
  token : String
  postings : List MPost
deriving DecidableEq

/-! ## The k-way merge (main.py `InvertedIndex.merge_partial_indexes`)

The Python code opens every partial file, seeds a `heapq` min-heap with the
first record of each file (entries are `(token, file_index, postings)`
tuples, compared lexicographically — the file indices are pairwise distinct,
so the postings are never compared), and repeatedly pops the minimum,
accumulating postings per token in a `dict` keyed by docid and emitting the
accumulated record whenever the popped token changes. -/

/-- A heap entry `(token, file_index, postings)`. -/
structure HeapEntry where
  token : String
  idx : Nat
  postings : List MPost
deriving DecidableEq

/-- The `heapq` ordering on entries: lexicographic on `(token, idx)`
(Python would compare the third components only on a tie in both, which
cannot happen since the file indices are distinct). -/
def entryLE (a b : HeapEntry) : Prop :=
  a.token < b.token ∨ (a.token = b.token ∧ a.idx ≤ b.idx)

instance (a b : HeapEntry) : Decidable (entryLE a b) := by
  unfold entryLE; infer_instance

/-- `heapq.heappop`: remove and return the minimum entry.  The heap itself is
modelled as a plain list with multiset semantics; the returned remainder
carries the arithmetic fact needed for termination of the merge loop. -/
def popMin : (l : List HeapEntry) →
    Option (HeapEntry × {rest : List HeapEntry // rest.length + 1 = l.length})
  | [] => none
  | e :: es =>
    match popMin es with
    | none => some (e, ⟨es, rfl⟩)
    | some (m, rest) =>
      if entryLE e m then some (e, ⟨es, rfl⟩)
      else some (m, ⟨e :: rest.val, by have := rest.property; simp only [List.length_cons]; omega⟩)

/-- The per-token accumulator `posting_map`: a Python dict from docid to
`{"tf": …, "fields": …}`, modelled as an association list in insertion
order. -/
abbrev PMap := List (Nat × Nat × Finset String)

/-- Value stored under docid `d`, if any. -/
def lookupM (m : PMap) (d : Nat) : Option (Nat × Finset String) :=
  (m.find? (fun e => e.1 == d)).map (fun e => e.2)

/-- Absorb one posting into `posting_map`: if the docid is present, add the
`tf` and union the `fields` in place, otherwise insert a fresh entry. -/
def addPosting (m : PMap) (p : MPost) : PMap :=
  if m.any (fun e => e.1 == p.docid) then
    m.map (fun e => if e.1 = p.docid then (e.1, e.2.1 + p.tf, e.2.2 ∪ p.fields) else e)
  else m ++ [(p.docid, p.tf, p.fields)]

/-- Absorb a postings list, left to right. -/
def addPostings (m : PMap) (ps : List MPost) : PMap := ps.foldl addPosting m

/-- Python's stable ascending sort by a key (`sorted(..., key=key)` /
`list.sort(key=key)`): insertion sort whose insert places an
originally-earlier element before any equal-keyed later one, which is the
output every stable sort produces. -/
def sortAscBy {α : Type} {β : Type} [LinearOrder β] (key : α → β) (l : List α) : List α :=
  List.insertionSort (fun a b => key a ≤ key b) l

/-- Python's stable *descending* sort by a key
(`list.sort(key=key, reverse=True)`): `reverse=True` keeps equal-keyed
elements in source order, so the earlier element goes before any later one
whose key is less than or equal to its own. -/
def pySortDesc {α : Type} {β : Type} [LinearOrder β] (key : α → β) (l : List α) : List α :=
  List.insertionSort (fun a b => key b ≤ key a) l

/-- `sorted(posting_map.items())` followed by re-packing into postings:
the merged postings list emitted for one token. -/
def emitMap (m : PMap) : List MPost :=
  (sortAscBy (fun e => e.1) m).map (fun e => ⟨e.1, e.2.1, e.2.2⟩)

/-- Records currently sitting in the heap, viewed as index records. -/
def heapRecs (heap : List HeapEntry) : List PRec :=
  heap.map (fun e => ⟨e.token, e.postings⟩)

/-- The remaining (unread) records of partial file `i`. -/
def fileAt (files : List (List PRec)) (i : Nat) : List PRec := files.getD i []

/-- Every record not yet absorbed by the merge: heap entries plus unread
file contents. -/
def remRecs (heap : List HeapEntry) (files : List (List PRec)) : List PRec :=
  heapRecs heap ++ files.flatten

/-- `read_next(files[i])`: take the next record of file `i`, if any,
returning it together with the advanced file list.  The attached equation
relates the record counts before and after, for termination of the loop. -/
def advanceFile : (files : List (List PRec)) → (i : Nat) →
    {p : Option PRec × List (List PRec) //
      (p.2.map List.length).sum + (match p.1 with | none => 0 | some _ => 1) =
        (files.map List.length).sum}
  | [], _ => ⟨(none, []), rfl⟩
  | [] :: fs, 0 => ⟨(none, [] :: fs), by simp⟩
  | (r :: rs) :: fs, 0 => ⟨(some r, rs :: fs), by simp [Nat.add_right_comm]⟩
  | f :: fs, i + 1 =>
    let q := advanceFile fs i
    ⟨(q.val.1, f :: q.val.2), by
      have h := q.property
      match hq : q.val.1 with
      | none => simp only [hq] at h ⊢; simp [List.map_cons, List.sum_cons]; omega
      | some r => simp only [hq] at h ⊢; simp [List.map_cons, List.sum_cons]; omega⟩

/-- Emit the record for the currently accumulating token, if any (the final
`if current_token is not None` block). -/
def emitCur : Option (String × PMap) → List PRec
  | none => []
  | some (t, m) => [⟨t, emitMap m⟩]

/-- One popped entry's effect on the accumulator `(current_token, posting_map)`:
same token ⇒ absorb the postings; different (or first) token ⇒ start a fresh
map initialized with the postings. -/
def stepCur (cur : Option (String × PMap)) (e : HeapEntry) : Option (String × PMap) :=
  match cur with
  | some (t, m) =>
    if e.token = t then some (t, addPostings m e.postings)
    else some (e.token, addPostings [] e.postings)
  | none => some (e.token, addPostings [] e.postings)

/-- One popped entry's effect on the output: a token change (with a token
accumulating) appends the accumulated record. -/
def stepOut (cur : Option (String × PMap)) (e : HeapEntry) (out : List PRec) : List PRec :=
  match cur with
  | some (t, m) => if e.token = t then out else out ++ [⟨t, emitMap m⟩]
  | none => out

/-- The `while heap:` loop of `merge_partial_indexes`: pop the minimum entry,
fold it into the accumulator (emitting on token change), then read the next
record of the popped entry's file and push it if the file is not exhausted. -/
def mergeLoop (heap : List HeapEntry) (files : List (List PRec))
    (cur : Option (String × PMap)) (out : List PRec) : List PRec :=
  match popMin heap with
  | none => out ++ emitCur cur
  | some (e, rest) =>
    match ha : (advanceFile files e.idx).val with
    | (none, fs2) => mergeLoop rest.val fs2 (stepCur cur e) (stepOut cur e out)
    | (some r, fs2) =>
      mergeLoop (rest.val ++ [⟨r.token, e.idx, r.postings⟩]) fs2
        (stepCur cur e) (stepOut cur e out)
termination_by heap.length + (files.map List.length).sum
decreasing_by
  · have h2 := (advanceFile files e.idx).property
    rw [ha] at h2
    simp only at h2
    omega
  · have h2 := (advanceFile files e.idx).property
    rw [ha] at h2
    simp only at h2
    simp only [List.length_append, List.length_cons, List.length_nil]
    omega

/-- The initial heap: the first record of each partial file, tagged with the
file's index (files are numbered from `i`). -/
def initHeapFrom : Nat → List (List PRec) → List HeapEntry
  | _, [] => []
  | i, [] :: fs => initHeapFrom (i + 1) fs
  | i, (r :: _) :: fs => ⟨r.token, i, r.postings⟩ :: initHeapFrom (i + 1) fs

/-- `InvertedIndex.merge_partial_indexes` (main.py): k-way merge of the given
partial files (file `i` models `<i>.jsonl`, already parsed into records) into
the final index, returned as the list of written lines. -/
def mergePartialIndexes (files : List (List PRec)) : List PRec :=
  mergeLoop (initHeapFrom 0 files) (files.map (fun f => f.drop 1)) none []

/-! ### Specification-side contribution functions for the merge -/

/-- Total `tf` contributed to docid `d` by one postings list. -/
def sumTfIn (ps : List MPost) (d : Nat) : Nat :=
  (ps.map (fun p => if p.docid = d then p.tf else 0)).sum

/-- Union of the `fields` contributed to docid `d` by one postings list. -/
def fieldsIn (ps : List MPost) (d : Nat) : Finset String :=
  ps.foldr (fun p acc => if p.docid = d then p.fields ∪ acc else acc) ∅

/-- Does some posting of the list mention docid `d`? -/
def occursIn (ps : List MPost) (d : Nat) : Bool :=
  ps.any (fun p => p.docid == d)

/-- Total `tf` contributed to the pair `(t, d)` by a collection of records. -/
def tfContrib (rs : List PRec) (t : String) (d : Nat) : Nat :=
  (rs.map (fun r => if r.token = t then sumTfIn r.postings d else 0)).sum

/-- Union of all `fields` contributed to the pair `(t, d)`. -/
def fieldsContrib (rs : List PRec) (t : String) (d : Nat) : Finset String :=
  rs.foldr (fun r acc => if r.token = t then fieldsIn r.postings d ∪ acc else acc) ∅

/-- Some record of the collection contributes to the pair `(t, d)`. -/
def OccursC (rs : List PRec) (t : String) (d : Nat) : Prop :=
  ∃ r ∈ rs, r.token = t ∧ occursIn r.postings d = true

instance (rs : List PRec) (t : String) (d : Nat) : Decidable (OccursC rs t d) := by
  unfold OccursC; infer_instance

/-- Expected value of the accumulator at docid `d` after absorbing `ps` on
top of a previous value `v` (the specification of `addPostings`). -/
def mergeVal (v : Option (Nat × Finset String)) (ps : List MPost) (d : Nat) :
    Option (Nat × Finset String) :=
  if occursIn ps d then
    some ((v.map Prod.fst).getD 0 + sumTfIn ps d, (v.map Prod.snd).getD ∅ ∪ fieldsIn ps d)
  else v

/-! ### Invariant of the merge loop -/

/-- Correctness of one emitted record `o` relative to the full input: its
postings are strictly ascending by docid (hence each docid appears at most
once) and each posting carries the total `tf` and the union of the `fields`
contributed to `(o.token, docid)` by all input records. -/
def OutOK (allRecs : List PRec) (o : PRec) : Prop :=
  List.Chain' (· < ·) (o.postings.map MPost.docid) ∧
  ∀ p ∈ o.postings,
    p.tf = tfContrib allRecs o.token p.docid ∧
    p.fields = fieldsContrib allRecs o.token p.docid

/-- Correctness of the whole output: lines strictly ascending by token, every
line correct. -/
def GoodOut (allRecs : List PRec) (out : List PRec) : Prop :=
  List.Chain' (· < ·) (out.map PRec.token) ∧ ∀ o ∈ out, OutOK allRecs o

/-- The accumulating `posting_map` holds, for each docid, exactly the total
contribution of the already-consumed records to `(t, docid)`, and its keys
are distinct. -/
def MapOK (consumed : List PRec) (t : String) (m : PMap) : Prop :=
  (m.map Prod.fst).Nodup ∧
  ∀ d, lookupM m d =
    if OccursC consumed t d then
      some (tfContrib consumed t d, fieldsContrib consumed t d)
    else none

/-- The full loop invariant of `mergeLoop`, carrying the multiset `consumed`
of records already absorbed. -/
structure MergeInv (allRecs consumed : List PRec) (heap : List HeapEntry)
    (files : List (List PRec)) (cur : Option (String × PMap))
    (out : List PRec) : Prop where
  hperm : allRecs.Perm (consumed ++ remRecs heap files)
  hidx : ∀ e ∈ heap, e.idx < files.length
  hnodupIdx : (heap.map HeapEntry.idx).Nodup
  hfileLB : ∀ e ∈ heap, ∀ r ∈ fileAt files e.idx, e.token ≤ r.token
  hcover : ∀ i, i < files.length → fileAt files i ≠ [] → ∃ e ∈ heap, e.idx = i
  hsorted : ∀ f ∈ files, List.Chain' (· ≤ ·) (f.map PRec.token)
  hout : GoodOut allRecs out
  hnone : cur = none → out = [] ∧ consumed = []
  hsome : ∀ t m, cur = some (t, m) →
    (∀ e ∈ heap, t ≤ e.token) ∧ MapOK consumed t m ∧
    (∀ r ∈ consumed, r.token ≤ t) ∧ (∀ o ∈ out, o.token < t)

/-! ## Shard & score (split_index.py) -/

/-- `get_term_range` (split_index.py): the bucket identifier of a token is
its first character, lowercased — verbatim, with no folding of non-letters
into `"other"`.  (Python raises `IndexError` on an empty token; the index
never stores one, and the model returns `""` there.) -/
def get_term_range (token : String) : String :=
  match token.data with
  | [] => ""
  | c :: _ => String.mk [c.toLower]

/-- `Search._get_index_file_for_token` (search.py), reduced to the bucket
name it looks up: first character lowercased if it `isalpha()`, otherwise
the literal `"other"`; `None` (here `none`) for an empty token. -/
def bucketForToken (token : String) : Option String :=
  match token.data with
  | [] => none
  | c :: _ => if c.toLower.isAlpha then some (String.mk [c.toLower]) else some "other"

/-- The multiplicative field boost of `calculate_tfidf`.  The Python float
literals `1.5` and `1.3` are modelled as the rationals they denote. -/
def fieldBoost (fields : Finset String) : ℚ :=
  (if "title" ∈ fields then 2 else 1) * (if "header" ∈ fields then 3 / 2 else 1) *
    (if "strong" ∈ fields then 13 / 10 else 1)

/-- `calculate_tfidf` (split_index.py):
`(1 + log tf) * log(TOTAL_DOCUMENTS / (1 + df)) * field_boost`, with natural
logarithms; `math.log` is modelled by `Real.log`. -/
noncomputable def calculate_tfidf (total_documents tf df : ℕ) (fields : Finset String) : ℝ :=
  (1 + Real.log tf) * Real.log (total_documents / (1 + df : ℝ)) * (fieldBoost fields : ℝ)

/-- A posting as written to a shard file: the final-index posting plus the
`tfidf` value (of score type `Q`: `ℝ` for the real scorer, kept abstract so
the bucketing claims can be evaluated). -/
structure SplitPost (Q : Type) where
  docid : Nat
  tf : Nat
  fields : Finset String
  tfidf : Q
deriving DecidableEq

/-- One line of a shard file. -/
structure SplitRec (Q : Type) where
  token : String
  postings : List (SplitPost Q)
deriving DecidableEq

/-- The Python f-string `f"{current_id}.jsonl"`: formatting the value `None`
yields the literal file name `"None.jsonl"`. -/
def fileNameOf : Option String → String
  | none => "None.jsonl"
  | some s => s ++ ".jsonl"

/-- Annotate one final-index record with tf-idf scores
(`df` is the length of its postings list). -/
def scoreRec {Q : Type} (score : Nat → Nat → Finset String → Q) (r : PRec) : SplitRec Q :=
  ⟨r.token, r.postings.map (fun p => ⟨p.docid, p.tf, p.fields, score p.tf r.postings.length p.fields⟩)⟩

/-- The line-by-line loop of `split_index` (split_index.py), accumulating the
current bucket and flushing it to `<bucket>.jsonl` whenever the bucket key of
the incoming line differs; the final clause is the trailing flush, whose
guard `current_postings is not None` is always true (the variable is always
a list), so it runs even when nothing was read and `current_id` is still
`None`. -/
def splitGo {Q : Type} (score : Nat → Nat → Finset String → Q) :
    List PRec → Option String → List (SplitRec Q) →
    List (String × List (SplitRec Q)) → List (String × List (SplitRec Q))
  | [], curId, curPs, written => written ++ [(fileNameOf curId, curPs)]
  | data :: rest, curId, curPs, written =>
    let scored := scoreRec score data
    let rangeId := get_term_range data.token
    if curId = some rangeId then splitGo score rest curId (curPs ++ [scored]) written
    else
      match curId with
      | none => splitGo score rest (some rangeId) [scored] written
      | some cid => splitGo score rest (some rangeId) [scored] (written ++ [(cid ++ ".jsonl", curPs)])

/-- `split_index` (split_index.py): split the final index (given as its
parsed lines, in file order) into shard files; the result lists each written
file name with the records written to it, in write order. -/
def splitIndex {Q : Type} (score : Nat → Nat → Finset String → Q) (lines : List PRec) :
    List (String × List (SplitRec Q)) :=
  splitGo score lines none [] []

/-! ## Query-time posting lookup (search.py `Search._get_token_postings`) -/

/-- A shard posting as consumed by the query evaluator (only the `docid` and
`tfidf` fields are read; scores are modelled as exact rationals). -/
structure SPost where
  docid : Nat
  tfidf : ℚ
deriving DecidableEq

/-- One parsed shard line. -/
structure ShardRec where
  token : String
  postings : List SPost
deriving DecidableEq

/-- One raw shard line: `none` models a line on which `json.loads` raises
(a corrupt line). -/
abbrev JLine := Option ShardRec

/-- The state of the shard file a token routes to: no such file in the index
directory (`_get_index_file_for_token` returns `None`), a file whose `open`
raises, or a readable file with its lines. -/
inductive ShardFile
  | absent
  | unreadable
  | content (lines : List JLine)

/-- The binary search over shard lines (the `while left <= right:` loop).
`rp1` is `right + 1`, so Python's initial `right = len(lines) - 1` becomes
`rp1 = lines.length` and the loop guard `left <= right` becomes
`left < rp1`.  Hitting a corrupt line raises, which the enclosing
`except` turns into a reported error and an empty result: `([], true)`,
where the boolean records that the error message was printed. -/
def binSearchShard (lines : List JLine) (token : String) (left rp1 : Nat) :
    List SPost × Bool :=
  if left < rp1 then
    let mid := left + (rp1 - 1 - left) / 2
    match lines.getD mid none with
    | none => ([], true)
    | some r =>
      if r.token = token then (r.postings, false)
      else if r.token < token then binSearchShard lines token (mid + 1) rp1
      else binSearchShard lines token left mid
  else ([], false)
termination_by rp1 - left
decreasing_by
  · omega
  · omega

/-- `Search._get_token_postings` (search.py): empty token or missing shard
file ⇒ silently empty; unreadable file or corrupt line ⇒ the `except` block
prints an error and the function returns the empty list.  The boolean is
true iff the error message was printed. -/
def getTokenPostingsE (file : ShardFile) (token : String) : List SPost × Bool :=
  if token = "" then ([], false)
  else
    match file with
    | .absent => ([], false)
    | .unreadable => ([], true)
    | .content lines => binSearchShard lines token 0 lines.length

/-! ## Query evaluation (search.py `Search.search`) -/

/-- The set of docids of a postings list. -/
def docidSet (ps : List SPost) : Finset Nat := (ps.map SPost.docid).toFinset

/-- Deduplication keeping first occurrences — the key set of the Python dict
comprehension `{token: … for token in tokens}`, in insertion order. -/
def pyDedupFirstAux (seen : Finset String) : List String → List String
  | [] => []
  | x :: xs =>
    if x ∈ seen then pyDedupFirstAux seen xs
    else x :: pyDedupFirstAux (insert x seen) xs

/-- Deduplicate a token list, keeping first occurrences in order. -/
def pyDedupFirst (l : List String) : List String := pyDedupFirstAux ∅ l

/-- `Search.boolean_and_search` (search.py): per distinct token, the set of
docids of its postings; sort those sets by ascending size (stably, as
`list.sort(key=…)` does) and intersect smallest-first.  No tokens ⇒ empty. -/
def booleanAndSearch (postingsOf : String → List SPost) (tokens : List String) : Finset Nat :=
  match sortAscBy Finset.card ((pyDedupFirst tokens).map (fun t => docidSet (postingsOf t))) with
  | [] => ∅
  | s :: ss => ss.foldl (fun acc x => acc ∩ x) s

/-- The scoring binary search over one token's postings list (docid order);
returns the posting's `tfidf` when found and `0` otherwise (a docid absent
from the list contributes nothing to the score). -/
def scoreBin (ps : List SPost) (docid : Nat) (left rp1 : Nat) : ℚ :=
  if left < rp1 then
    let mid := left + (rp1 - 1 - left) / 2
    match ps.getD mid ⟨0, 0⟩ with
    | p =>
      if p.docid = docid then p.tfidf
      else if p.docid < docid then scoreBin ps docid (mid + 1) rp1
      else scoreBin ps docid left mid
  else 0
termination_by rp1 - left
decreasing_by
  · omega
  · omega

/-- Score of one docid for one token (the inner `while` loop of `search`). -/
def scoreLookup (ps : List SPost) (docid : Nat) : ℚ := scoreBin ps docid 0 ps.length

/-- One entry of the pre-ranked result list.  The Python dict holds only
`url` and `score`; the originating `docid` is carried here as a ghost field
so ordering claims about documents can be stated. -/
structure RankedEntry where
  docid : Nat
  url : String
  score : ℚ
deriving DecidableEq

/-- The result-collection loop of `Search.search`: iterate the matching
docids in the order `enum` (the CPython set-iteration order, which the
language does not specify — it is therefore a parameter), sum each token's
`tfidf` for the doc, skip docs whose URL was already emitted, and append. -/
def collectResults (tokens : List String) (postingsOf : String → List SPost)
    (docUrl : Nat → String) (enum : List Nat) : List RankedEntry :=
  (enum.foldl
    (fun (acc : List RankedEntry × Finset String) d =>
      let score := tokens.foldl (fun s t => s + scoreLookup (postingsOf t) d) 0
      let url := docUrl d
      if url ∈ acc.2 then acc
      else (acc.1 ++ [⟨d, url, score⟩], insert url acc.2))
    ([], ∅)).1

/-- `Search.search` (search.py) below tokenization: `tokens` is the output
list of `tokenize_query` (in its unspecified set-iteration order),
`postingsOf` the per-token posting lookup, `docUrl` the docid→URL map and
`enum` the iteration order of the matching-docs set.  The collected results
are sorted by `results.sort(key=lambda x: x['score'], reverse=True)` — a
stable descending sort on the score alone. -/
def searchRanked (tokens : List String) (postingsOf : String → List SPost)
    (docUrl : Nat → String) (enum : List Nat) : List RankedEntry :=
  pySortDesc RankedEntry.score (collectResults tokens postingsOf docUrl enum)

/-- The ordering claim C5 states for the returned ranking: strictly
descending score, with equal scores ordered by ascending docid. -/
def ClaimedRankOrder (l : List RankedEntry) : Prop :=
  List.Pairwise (fun a b => b.score < a.score ∨ (a.score = b.score ∧ a.docid < b.docid)) l

instance (l : List RankedEntry) : Decidable (ClaimedRankOrder l) := by
  unfold ClaimedRankOrder; infer_instance

/-! ## Near-duplicate detection (main.py `custom_hash`, `is_duplicate`,
`process_document`) -/

/-- `custom_hash` (main.py): polynomial rolling hash, base 31, modulus
`10^9 + 7`, character contribution `ord(c) - ord('a') + 1`, reduced modulo
`m` at each step exactly as the Python loop does (Python `%` on a negative
value, like Lean's `Int.emod`, yields a value in `[0, m)`). -/
def custom_hash (s : List Char) : Int :=
  (s.foldl
    (fun (acc : Int × Int) c =>
      ((acc.1 + ((c.toNat : Int) - 96) * acc.2) % 1000000007,
       acc.2 * 31 % 1000000007))
    (0, 1)).1

/-- The overlapping 3-grams of a token stream, each joined by single
spaces. -/
def trigramsOf (tokens : List String) : List String :=
  (List.range (tokens.length - 2)).map
    (fun i => String.intercalate " " ((tokens.drop i).take 3))

/-- The deduplicated trigram hash set of a token stream. -/
def trigramHashes (tokens : List String) : Finset Int :=
  ((trigramsOf tokens).map (fun s => custom_hash s.data)).toFinset

/-- The sampled fingerprint: hashes divisible by 4. -/
def selectedHashes (tokens : List String) : Finset Int :=
  (trigramHashes tokens).filter (fun h => h % 4 = 0)

/-- Jaccard similarity as computed by `is_duplicate`:
`len(A ∩ B) / len(A ∪ B)`, with `∅ ∪ ∅` explicitly treated as similarity
`0.0`.  The Python float division is modelled as exact rational division
(every comparison below against the `0.85` threshold is exact). -/
def simQ (a b : Finset Int) : ℚ :=
  if a ∪ b = ∅ then 0 else ((a ∩ b).card : ℚ) / ((a ∪ b).card : ℚ)

/-- `InvertedIndex.is_duplicate` (main.py): short documents are never
duplicates (and are not recorded); otherwise compare the sampled fingerprint
against every recorded fingerprint and report a duplicate at similarity
`≥ 0.85` (the threshold literal is written `mkRat 85 100`, the exact
rational 0.85); a non-duplicate's fingerprint is recorded.  Returns the
verdict together with the updated fingerprint set `self.near_duplicate`. -/
def isDuplicateCheck (fingerprints : Finset (Finset Int)) (tokens : List String) :
    Bool × Finset (Finset Int) :=
  if tokens.length < 10 then (false, fingerprints)
  else
    let sel := selectedHashes tokens
    if ∃ fp ∈ fingerprints, mkRat 85 100 ≤ simQ sel fp then (true, fingerprints)
    else (false, insert sel fingerprints)

/-- The indexer state relevant to docid assignment: `DOC_ID_COUNT` (the next
docid, starting at 1) and the fingerprint set. -/
structure IdxState where
  nextId : Nat
  fps : Finset (Finset Int)
deriving DecidableEq

/-- `InvertedIndex.process_document` (main.py), at the token-stream level
(parsing and field extraction already done, URL and content valid): check
for near-duplicates — a duplicate is skipped with no docid assigned —
otherwise assign the next docid (`url_to_docid`).  Returns the new state and
the assigned docid, if any. -/
def processTokens (st : IdxState) (tokens : List String) : IdxState × Option Nat :=
  let r := isDuplicateCheck st.fps tokens
  if r.1 then (⟨st.nextId, r.2⟩, none)
  else (⟨st.nextId + 1, r.2⟩, some st.nextId)

/-- Process a batch of documents (given as token streams) in order, from a
fresh indexer, collecting each document's assigned docid (or `none` for a
skipped near-duplicate). -/
def processDocs (docs : List (List String)) : IdxState × List (Option Nat) :=
  docs.foldl
    (fun (acc : IdxState × List (Option Nat)) tokens =>
      let r := processTokens acc.1 tokens
      (r.1, acc.2 ++ [r.2]))
    (⟨1, ∅⟩, [])

/-! ## The HTTP handler (app.py `search`) -/

/-- Python `str.strip()`: remove leading and trailing whitespace. -/
def pyStrip (s : String) : String :=
  String.mk (((s.data.dropWhile Char.isWhitespace).reverse.dropWhile Char.isWhitespace).reverse)

/-- A response of the `/search` route: a JSON result list, or a JSON error
object with an HTTP status code. -/
inductive AppResp
  | ok (results : List (String × ℚ))
  | err (message : String) (status : Nat)
deriving DecidableEq

/-- The `/search` handler (app.py): strip the `query` parameter (missing
parameter ⇒ `""`); an empty remainder is rejected with status 400 *before*
the evaluator is consulted; otherwise the evaluator runs, its exceptions
becoming a status-500 error. -/
def appSearch (evalQ : String → Except String (List (String × ℚ))) (raw : String) : AppResp :=
  let query := pyStrip raw
  if query = "" then .err "Please provide a valid query" 400
  else
    match evalQ query with
    | .ok results => .ok results
    | .error e => .err ("Search failed: " ++ e) 500

/-! # Theorems

First a stack of helper lemmas, then one theorem (with counterexample and
witness where applicable) per claim. -/

/-! ## Helper lemmas: binary search error behaviour (C4) -/

/-- Whenever the shard binary search reports an error (a corrupt line was
hit), the postings it returns are empty. -/
theorem binSearchShard_err_empty (lines : List JLine) (token : String) :
    ∀ left rp1, (binSearchShard lines token left rp1).2 = true →
      (binSearchShard lines token left rp1).1 = [] := by
  intro left rp1
  induction left, rp1 using binSearchShard.induct lines token with
  | case1 left rp1 hlt mid hline =>
    have h' : lines.getD (left + (rp1 - 1 - left) / 2) none = none := hline
    rw [binSearchShard.eq_def]
    simp only [if_pos hlt, h']
    intro
    trivial
  | case2 left rp1 hlt mid r hline heq =>
    have h' : lines.getD (left + (rp1 - 1 - left) / 2) none = some r := hline
    rw [binSearchShard.eq_def]
    simp only [if_pos hlt, h', if_pos heq]
    intro h
    cases h
  | case3 left rp1 hlt mid r hline heq hlt2 ih =>
    have h' : lines.getD (left + (rp1 - 1 - left) / 2) none = some r := hline
    rw [binSearchShard.eq_def]
    simp only [if_pos hlt, h', if_neg heq, if_pos hlt2]
    exact ih
  | case4 left rp1 hlt mid r hline heq hlt2 ih =>
    have h' : lines.getD (left + (rp1 - 1 - left) / 2) none = some r := hline
    rw [binSearchShard.eq_def]
    simp only [if_pos hlt, h', if_neg heq, if_neg hlt2]
    exact ih
  | case5 left rp1 hlt =>
    rw [binSearchShard.eq_def]
    simp only [if_neg hlt]
    intro h
    cases h

/-! ## Claim C4 — per-token lookup failure behaviour -/

/-- Claim C4 counterexample: the shard has a corrupt JSON line (`none`) at
the first probe position of the binary search for `"b"`; the lookup does
*not* abort the query — it prints an error (second component `true`) and
returns the empty posting list, exactly the behaviour the claim says never
happens. -/
theorem C4_corrupt_line_counterexample :
    getTokenPostingsE (.content [some ⟨"a", []⟩, none, some ⟨"c", []⟩]) "b" = ([], true) := by
  simp [getTokenPostingsE, binSearchShard]

/-- Claim C4, amended: a missing shard file for a token yields the empty
posting list with no error reported, and whenever the lookup reports an
error (unreadable file, or a corrupt JSON line hit during the binary
search), it likewise degrades to the empty posting list for that token —
the query is never aborted. -/
theorem C4_lookup_failure_behavior (file : ShardFile) (token : String) :
    ((getTokenPostingsE file token).2 = true → (getTokenPostingsE file token).1 = []) ∧
    (file = ShardFile.absent → getTokenPostingsE file token = ([], false)) := by
  constructor
  · cases file with
    | absent =>
      unfold getTokenPostingsE
      split <;> simp
    | unreadable =>
      unfold getTokenPostingsE
      split <;> simp
    | content lines =>
      unfold getTokenPostingsE
      split
      · simp
      · exact binSearchShard_err_empty lines token 0 lines.length
  · rintro rfl
    unfold getTokenPostingsE
    split <;> rfl

/-- Claim C4 witness: a concrete corrupt-line lookup for which the error is
reported, whose postings the amended theorem then forces to be empty. -/
theorem C4_lookup_failure_behavior_witness :
    (getTokenPostingsE (.content [none]) "x").2 = true ∧
    (getTokenPostingsE (.content [none]) "x").1 = [] :=
  ⟨by simp [getTokenPostingsE, binSearchShard],
   (C4_lookup_failure_behavior (.content [none]) "x").1
     (by simp [getTokenPostingsE, binSearchShard])⟩

/-! ## Claim C9 — empty query handling in the HTTP handler -/

/-- Claim C9 counterexample: the handler's client-visible message on an
empty query is `"Please provide a valid query"` (capital `P`), not the
claimed `"please provide a valid query"`. -/
theorem C9_error_message_counterexample :
    appSearch (fun _ => .ok []) "" = .err "Please provide a valid query" 400 ∧
    ("Please provide a valid query" : String) ≠ "please provide a valid query" := by
  constructor
  · decide
  · decide

/-- Claim C9, amended: a query that is empty (or whitespace-only) after
stripping is rejected with status 400 and the message
`"Please provide a valid query"`, and the response does not depend on the
query evaluator — the evaluator is never invoked. -/
theorem C9_empty_query_rejected
    (ev ev2 : String → Except String (List (String × ℚ))) (raw : String)
    (h : pyStrip raw = "") :
    appSearch ev raw = .err "Please provide a valid query" 400 ∧
    appSearch ev raw = appSearch ev2 raw := by
  constructor <;> simp [appSearch, h]

/-- Claim C9 witness: the whitespace-only query `"   "` is rejected. -/
theorem C9_empty_query_rejected_witness :
    pyStrip "   " = "" ∧
    appSearch (fun q => .ok [(q, 1)]) "   " = .err "Please provide a valid query" 400 :=
  ⟨by decide,
   (C9_empty_query_rejected (fun q => .ok [(q, 1)]) (fun _ => .ok []) "   " (by decide)).1⟩

/-! ## Claim C10 — split_index on an empty final index -/

/-- Claim C10: on an empty final-index file the loop of `split_index` never
runs, `current_id` is still `None`, and the trailing flush still executes
(its guard `current_postings is not None` is always true because
`current_postings` is a list), so exactly one shard file is created, and it
is literally named `None.jsonl`. -/
theorem C10_empty_index_creates_none_shard {Q : Type}
    (score : Nat → Nat → Finset String → Q) :
    splitIndex score [] = [("None.jsonl", [])] := rfl

/-! ## Claim C1 — bucket policy of the sharder -/

/-- Claim C1: `split_index` buckets a term by its first character verbatim
(`get_term_range`), so the digit-initial term `"42"` is written to the shard
file `4.jsonl` — not to `other.jsonl`, which is the shard the query
evaluator (`_get_index_file_for_token`, here `bucketForToken`) probes for
such terms.  Evaluated at the failing input: one final-index line with token
`"42"` (the tf-idf scorer is irrelevant to bucketing and instantiated with a
constant). -/
theorem C1_digit_term_bucket_mismatch :
    splitIndex (fun _ _ _ => (0 : ℚ)) [⟨"42", [⟨1, 1, ∅⟩]⟩] =
      [("4.jsonl", [⟨"42", [⟨1, 1, ∅, 0⟩]⟩])] ∧
    bucketForToken "42" = some "other" ∧
    get_term_range "42" = "4" ∧
    ("4.jsonl" : String) ≠ "other.jsonl" := by
  refine ⟨?_, ?_, ?_, ?_⟩ <;> decide

/-! ## Claim C6 — sign of the tf-idf score -/

/-- Claim C6 counterexample: with one document (`N = 1`) and a term of
document frequency `df = 1` and `tf = 1`, the stored tf-idf is
`(1 + ln 1) · ln(1/2) · 1 = ln(1/2) < 0` — postings can carry a strictly
negative tf-idf. -/
theorem C6_tfidf_negative_counterexample :
    calculate_tfidf 1 1 1 (∅ : Finset String) < 0 := by
  unfold calculate_tfidf
  have hb : ((fieldBoost (∅ : Finset String) : ℚ) : ℝ) = 1 := by
    norm_num [fieldBoost]
  rw [hb]
  have hlog : Real.log ((1 : ℕ) / (1 + (1 : ℕ) : ℝ)) < 0 := by
    apply Real.log_neg <;> norm_num
  have h1 : Real.log ((1 : ℕ) : ℝ) = 0 := by norm_num
  rw [h1]
  nlinarith [hlog]

/-- Claim C6, amended: the tf-idf `calculate_tfidf` stores is non-negative
whenever `tf ≥ 1` and the corpus is large enough that `df + 1 ≤ N`; when
`N < df + 1` the idf factor `ln(N/(1+df))` is negative and so is the score
(see the counterexample). -/
theorem C6_tfidf_nonneg_when_enough_docs (total_documents tf df : ℕ)
    (fields : Finset String) (htf : 1 ≤ tf) (hN : df + 1 ≤ total_documents) :
    0 ≤ calculate_tfidf total_documents tf df fields := by
  unfold calculate_tfidf
  have h1 : (0 : ℝ) ≤ 1 + Real.log tf := by
    have : (0 : ℝ) ≤ Real.log tf := Real.log_nonneg (by exact_mod_cast htf)
    linarith
  have h2 : (0 : ℝ) ≤ Real.log ((total_documents : ℝ) / (1 + df : ℝ)) := by
    apply Real.log_nonneg
    rw [le_div_iff₀ (by positivity)]
    have hc : ((df : ℝ) + 1) ≤ (total_documents : ℝ) := by exact_mod_cast hN
    linarith
  have h3 : (0 : ℝ) ≤ ((fieldBoost fields : ℚ) : ℝ) := by
    have : (0 : ℚ) ≤ fieldBoost fields := by
      unfold fieldBoost
      split_ifs <;> norm_num
    exact_mod_cast this
  exact mul_nonneg (mul_nonneg h1 h2) h3

/-- Claim C6 witness: a concrete in-range posting
(`N = 3`, `tf = 2`, `df = 1`, a title hit) has a non-negative score. -/
theorem C6_tfidf_nonneg_witness :
    1 ≤ 2 ∧ 1 + 1 ≤ 3 ∧ 0 ≤ calculate_tfidf 3 2 1 {"title"} :=
  ⟨by decide, by decide,
   C6_tfidf_nonneg_when_enough_docs 3 2 1 {"title"} (by decide) (by decide)⟩

/-! ## Claim C8 — three identical documents -/

set_option maxRecDepth 200000 in
/-- Claim C8 counterexample: twelve repetitions of the token `"a"` form a
stream of length 12 ≥ 10 whose single trigram `"a a a"` hashes to
`999015882 ≡ 2 (mod 4)`, so the sampled fingerprint is empty.  An empty
fingerprint has similarity `0.0` against everything (`∅ ∪ ∅` is treated as
similarity 0), so *all three* identical documents are indexed and receive
docids 1, 2, 3 — not just the first. -/
theorem C8_empty_fingerprint_counterexample :
    10 ≤ (List.replicate 12 "a").length ∧
    selectedHashes (List.replicate 12 "a") = ∅ ∧
    (processDocs
        [List.replicate 12 "a", List.replicate 12 "a", List.replicate 12 "a"]).2 =
      [some 1, some 2, some 3] := by
  refine ⟨by decide, by decide, by decide⟩

/-- Claim C8, amended: for three identical token streams of length ≥ 10
whose *sampled fingerprint is non-empty* (some trigram hash is divisible
by 4), exactly the first document is indexed — the second and third are
classified as near-duplicates and get no docid — and the doc-id counter
stops at 2 (`DOC_ID_COUNT` starts at 1 and one docid was assigned).  When
the sampled fingerprint is empty the similarity degenerates to 0 and all
three are indexed (see the counterexample). -/
theorem C8_identical_docs_deduped (tokens : List String)
    (hlen : 10 ≤ tokens.length) (hne : (selectedHashes tokens).Nonempty) :
    (processDocs [tokens, tokens, tokens]).2 = [some 1, none, none] ∧
    (processDocs [tokens, tokens, tokens]).1.nextId = 2 := by
  have hnotlt : ¬ tokens.length < 10 := by omega
  have hsim : simQ (selectedHashes tokens) (selectedHashes tokens) = 1 := by
    unfold simQ
    rw [Finset.union_self, Finset.inter_self,
      if_neg (Finset.nonempty_iff_ne_empty.mp hne)]
    have hc : (selectedHashes tokens).card ≠ 0 := by
      have := Finset.card_pos.mpr hne
      omega
    exact div_self (by exact_mod_cast hc)
  have hd1 : isDuplicateCheck ∅ tokens = (false, {selectedHashes tokens}) := by
    unfold isDuplicateCheck
    rw [if_neg hnotlt, if_neg (by simp)]
    rfl
  have hd2 : isDuplicateCheck {selectedHashes tokens} tokens =
      (true, {selectedHashes tokens}) := by
    unfold isDuplicateCheck
    rw [if_neg hnotlt,
      if_pos ⟨selectedHashes tokens, Finset.mem_singleton_self _, by
        rw [hsim]
        rw [Rat.mkRat_eq_div]
        norm_num⟩]
  constructor <;> simp [processDocs, processTokens, hd1, hd2]

set_option maxRecDepth 200000 in
/-- Claim C8 witness: twelve repetitions of `"d"` — the trigram `"d d d"`
hashes to `1789324 ≡ 0 (mod 4)`, so the sampled fingerprint is non-empty
and the second and third copies are skipped. -/
theorem C8_identical_docs_deduped_witness :
    10 ≤ (List.replicate 12 "d").length ∧
    (selectedHashes (List.replicate 12 "d")).Nonempty ∧
    (processDocs
        [List.replicate 12 "d", List.replicate 12 "d", List.replicate 12 "d"]).2 =
      [some 1, none, none] :=
  ⟨by decide, by decide,
   (C8_identical_docs_deduped (List.replicate 12 "d") (by decide) (by decide)).1⟩

/-! ## Claim C5 — ordering of search results -/

/-- Claim C5 counterexample: one query token `"dog"` with postings for
docids 1 and 9 at equal tf-idf 1.  The matching set is `{1, 9}`; CPython
does not specify a set's iteration order and `[9, 1]` is a valid enumeration
of it (for the ints 1 and 9, which collide modulo the initial 8-slot table,
it is the order CPython actually produces when 9 is inserted first).  The
stable score-only sort keeps the tie in enumeration order, so document 9 is
returned *before* document 1 — equal scores are not ordered by ascending
docid and the ranking is not deterministic. -/
theorem C5_tie_order_counterexample :
    ([9, 1] : List Nat).Nodup ∧
    ([9, 1] : List Nat).toFinset =
      booleanAndSearch (fun t => if t = "dog" then [⟨1, 1⟩, ⟨9, 1⟩] else []) ["dog"] ∧
    searchRanked ["dog"] (fun t => if t = "dog" then [⟨1, 1⟩, ⟨9, 1⟩] else [])
        (fun d => if d = 9 then "a" else "b") [9, 1] = [⟨9, "a", 1⟩, ⟨1, "b", 1⟩] ∧
    ¬ ClaimedRankOrder
        (searchRanked ["dog"] (fun t => if t = "dog" then [⟨1, 1⟩, ⟨9, 1⟩] else [])
          (fun d => if d = 9 then "a" else "b") [9, 1]) := by
  have h9 : scoreBin [⟨1, 1⟩, ⟨9, 1⟩] 9 0 2 = 1 := by
    rw [scoreBin.eq_def]
    norm_num
    rw [scoreBin.eq_def]
    norm_num
  have h1 : scoreBin [⟨1, 1⟩, ⟨9, 1⟩] 1 0 2 = 1 := by
    rw [scoreBin.eq_def]
    norm_num
  have heval : searchRanked ["dog"] (fun t => if t = "dog" then [⟨1, 1⟩, ⟨9, 1⟩] else [])
      (fun d => if d = 9 then "a" else "b") [9, 1] = [⟨9, "a", 1⟩, ⟨1, "b", 1⟩] := by
    simp [searchRanked, collectResults, scoreLookup, h9, h1, pySortDesc,
      List.insertionSort, List.orderedInsert]
  refine ⟨by decide, by decide, heval, ?_⟩
  rw [heval]
  decide

/-- Claim C5, amended: for every token list, posting lookup, docid→URL map
and enumeration of the matching docids, `search` returns the collected
(URL-deduplicated) surviving documents sorted by non-increasing score — a
stable sort on the score alone, so the relative order of equal-score
documents is the (unspecified) set-iteration order of the matching docids,
not necessarily ascending docid. -/
theorem C5_search_sorted_desc (tokens : List String) (postingsOf : String → List SPost)
    (docUrl : Nat → String) (enum : List Nat) :
    List.Pairwise (fun a b : RankedEntry => b.score ≤ a.score)
      (searchRanked tokens postingsOf docUrl enum) ∧
    (searchRanked tokens postingsOf docUrl enum).Perm
      (collectResults tokens postingsOf docUrl enum) := by
  constructor
  · haveI : IsTotal RankedEntry (fun a b => b.score ≤ a.score) :=
      ⟨fun a b => le_total b.score a.score⟩
    haveI : IsTrans RankedEntry (fun a b => b.score ≤ a.score) :=
      ⟨fun _ _ _ hab hbc => le_trans hbc hab⟩
    exact List.sorted_insertionSort _ _
  · exact List.perm_insertionSort _ _

/-! ## Helper lemmas: the two tokenizers (C2) -/

/-- Two run-splitters agree on inputs where their character classes agree. -/
theorem runsAux_congr (k1 k2 : Char → Bool) :
    ∀ (cs : List Char) (acc : List Char), (∀ c ∈ cs, k1 c = k2 c) →
      runsAux k1 cs acc = runsAux k2 cs acc
  | [], _, _ => rfl
  | c :: cs, acc, h => by
    have hc : k1 c = k2 c := h c (List.mem_cons_self c cs)
    have ih : ∀ acc', runsAux k1 cs acc' = runsAux k2 cs acc' :=
      fun acc' => runsAux_congr k1 k2 cs acc' (fun x hx => h x (List.mem_cons_of_mem c hx))
    unfold runsAux
    rw [← hc]
    by_cases h1 : k1 c = true
    · rw [if_pos h1, if_pos h1]
      exact ih _
    · rw [if_neg h1, if_neg h1]
      by_cases h2 : acc.isEmpty = true
      · rw [if_pos h2, if_pos h2]
        exact ih _
      · rw [if_neg h2, if_neg h2, ih _]

/-- Every run the splitter emits is non-empty. -/
theorem runsAux_ne_nil (keep : Char → Bool) :
    ∀ (cs : List Char) (acc : List Char) (t : List Char), t ∈ runsAux keep cs acc → t ≠ []
  | [], acc, t, ht => by
    unfold runsAux at ht
    by_cases h : acc.isEmpty = true
    · rw [if_pos h] at ht
      cases ht
    · rw [if_neg h] at ht
      rcases List.mem_singleton.mp ht with rfl
      intro hnil
      apply h
      rw [List.isEmpty_iff]
      simpa using congrArg List.reverse hnil
  | c :: cs, acc, t, ht => by
    unfold runsAux at ht
    by_cases h1 : keep c = true
    · rw [if_pos h1] at ht
      exact runsAux_ne_nil keep cs _ t ht
    · rw [if_neg h1] at ht
      by_cases h2 : acc.isEmpty = true
      · rw [if_pos h2] at ht
        exact runsAux_ne_nil keep cs _ t ht
      · rw [if_neg h2] at ht
        rcases List.mem_cons.mp ht with rfl | ht'
        · intro hnil
          apply h2
          rw [List.isEmpty_iff]
          simpa using congrArg List.reverse hnil
        · exact runsAux_ne_nil keep cs _ t ht'

/-- A character of the class `[a-z0-9]` is not whitespace. -/
theorem notWs_of_tokChar (c : Char) (h : isTokChar c = true) : c.isWhitespace = false := by
  cases hw : c.isWhitespace
  · rfl
  · exfalso
    rw [Char.isWhitespace] at hw
    simp only [Bool.or_eq_true, decide_eq_true_eq] at hw
    rcases hw with ((rfl | rfl) | rfl) | rfl <;> exact absurd h (by decide)

/-- `toFinset` after `map` is `image` after `toFinset`. -/
theorem list_toFinset_map {α β : Type} [DecidableEq α] [DecidableEq β]
    (f : α → β) (l : List α) : (l.map f).toFinset = l.toFinset.image f := by
  ext x
  simp

/-- Removing the stop-words commutes with a stemmer that maps a word to a
stop-word only if the word already is one. -/
theorem image_sdiff_stop (stem : String → String)
    (hstop : ∀ t, stem t ∈ STOP_WORDS ↔ t ∈ STOP_WORDS) (T : Finset String) :
    (T \ STOP_WORDS).image stem = T.image stem \ STOP_WORDS := by
  ext x
  simp only [Finset.mem_image, Finset.mem_sdiff]
  constructor
  · rintro ⟨t, ⟨htT, hts⟩, rfl⟩
    exact ⟨⟨t, htT, rfl⟩, fun hx => hts ((hstop t).mp hx)⟩
  · rintro ⟨⟨t, htT, rfl⟩, hx⟩
    exact ⟨t, ⟨htT, fun hts => hx ((hstop t).mpr hts)⟩, rfl⟩

/-! ## Claim C2 — query-time tokenization -/

set_option maxRecDepth 100000 in
/-- Claim C2 counterexample: on the query `"ab-cd"` the query tokenizer
splits on whitespace only and keeps the hyphenated chunk whole, producing
`{"ab-cd"}`, whereas the claimed pipeline (the index tokenizer, then
dedup and stop-word removal) extracts the `[a-z0-9]+` runs and produces
`{"ab", "cd"}`.  The stemmer is instantiated with `porter_stub`, which
agrees with the real Porter stemmer on every string involved. -/
theorem C2_query_pipeline_counterexample :
    tokenize_query porter_stub "ab-cd" = {"ab-cd"} ∧
    queryTokensClaimed porter_stub "ab-cd" = {"ab", "cd"} ∧
    tokenize_query porter_stub "ab-cd" ≠ queryTokensClaimed porter_stub "ab-cd" := by
  have h1 : tokenize_query porter_stub "ab-cd" = {"ab-cd"} := by decide
  have h2 : queryTokensClaimed porter_stub "ab-cd" = {"ab", "cd"} := by decide
  refine ⟨h1, h2, ?_⟩
  rw [h1, h2]
  decide

set_option maxRecDepth 100000 in
/-- Claim C2, amended: query-time tokenization lowercases the query, splits
it on whitespace (keeping punctuation inside chunks — no `[a-z0-9]+`
extraction and no digit special-case), deduplicates the chunks as a set,
removes the stop-words, and only then stems each remaining chunk.  It
coincides with the pipeline the claim describes exactly on queries whose
(lowercased) characters are spaces, lowercase letters and digits, provided
the stemmer fixes digit strings and maps a chunk to a stop-word only if the
chunk itself is one. -/
theorem C2_tokenize_query_agrees (stem : String → String) (q : String)
    (hq : ∀ c ∈ lowerData q, c = ' ' ∨ isTokChar c = true)
    (hdigit : ∀ s : String, s ≠ "" → s.data.all Char.isDigit = true → stem s = s)
    (hstop : ∀ t, stem t ∈ STOP_WORDS ↔ t ∈ STOP_WORDS) :
    tokenize_query stem q = queryTokensClaimed stem q := by
  have hsplit : splitRuns (fun c => !c.isWhitespace) (lowerData q) =
      splitRuns isTokChar (lowerData q) := by
    unfold splitRuns
    apply runsAux_congr
    intro c hc
    rcases hq c hc with rfl | h
    · decide
    · rw [notWs_of_tokChar c h, h]
      rfl
  have htok : pyTokenize stem q =
      (splitRuns isTokChar (lowerData q)).map (fun t => stem (String.mk t)) := by
    unfold pyTokenize
    apply List.map_congr_left
    intro t ht
    by_cases hd : t.all Char.isDigit = true
    · rw [if_pos hd]
      have hne : t ≠ [] := runsAux_ne_nil isTokChar (lowerData q) [] t ht
      have hfix : stem (String.mk t) = String.mk t := by
        apply hdigit (String.mk t)
        · intro hcon
          exact hne (by simpa using congrArg String.data hcon)
        · simpa using hd
      rw [hfix]
    · rw [if_neg hd]
  unfold tokenize_query queryTokensClaimed pySplitWs
  rw [hsplit, htok]
  have hcomp : (splitRuns isTokChar (lowerData q)).map (fun t => stem (String.mk t)) =
      ((splitRuns isTokChar (lowerData q)).map String.mk).map stem := by
    rw [List.map_map]
    rfl
  rw [hcomp, list_toFinset_map stem, list_toFinset_map String.mk]
  exact image_sdiff_stop stem hstop _

/-- Claim C2 witness: on the plain query `"quick brown fox 42"` (lowercase
letters, digits and spaces only) the two pipelines agree, with the stemmer
instantiated by `porter_stub`. -/
theorem C2_tokenize_query_agrees_witness :
    (∀ c ∈ lowerData "quick brown fox 42", c = ' ' ∨ isTokChar c = true) ∧
    tokenize_query porter_stub "quick brown fox 42" =
      queryTokensClaimed porter_stub "quick brown fox 42" :=
  ⟨by decide,
   C2_tokenize_query_agrees porter_stub "quick brown fox 42" (by decide)
     (fun _ _ _ => rfl) (fun _ => Iff.rfl)⟩

/-! ## Helper lemmas: the heap (C3, C7) -/

/-- The heap order is total. -/
theorem entryLE_total (a b : HeapEntry) : entryLE a b ∨ entryLE b a := by
  unfold entryLE
  rcases lt_trichotomy a.token b.token with h | h | h
  · exact Or.inl (Or.inl h)
  · rcases Nat.le_total a.idx b.idx with h2 | h2
    · exact Or.inl (Or.inr ⟨h, h2⟩)
    · exact Or.inr (Or.inr ⟨h.symm, h2⟩)
  · exact Or.inr (Or.inl h)

/-- The heap order is transitive. -/
theorem entryLE_trans {a b c : HeapEntry} (hab : entryLE a b) (hbc : entryLE b c) :
    entryLE a c := by
  unfold entryLE at *
  rcases hab with h1 | ⟨h1, h1'⟩ <;> rcases hbc with h2 | ⟨h2, h2'⟩
  · exact Or.inl (lt_trans h1 h2)
  · exact Or.inl (h2 ▸ h1)
  · exact Or.inl (h1 ▸ h2)
  · exact Or.inr ⟨h1.trans h2, le_trans h1' h2'⟩

/-- The heap order is reflexive. -/
theorem entryLE_refl (a : HeapEntry) : entryLE a a := Or.inr ⟨rfl, le_refl _⟩

/-- `popMin` returns `none` exactly on the empty heap. -/
theorem popMin_eq_none {l : List HeapEntry} : popMin l = none ↔ l = [] := by
  cases l with
  | nil => simp [popMin]
  | cons e es =>
    simp only [popMin]
    constructor
    · intro h
      rcases hp : popMin es with _ | ⟨m, rest⟩ <;> rw [hp] at h
      · cases h
      · by_cases hle : entryLE e m <;> simp [hle] at h
    · intro h
      cases h

/-- The popped entry and remainder are a permutation of the heap. -/
theorem popMin_perm : ∀ {l : List HeapEntry} {e : HeapEntry}
    {rest : {rest : List HeapEntry // rest.length + 1 = l.length}},
    popMin l = some (e, rest) → l.Perm (e :: rest.val)
  | [], _, _, h => by cases h
  | x :: xs, e, rest, h => by
    rw [popMin] at h
    rcases hp : popMin xs with _ | ⟨m, r⟩ <;> rw [hp] at h <;> simp only at h
    · have := popMin_eq_none.mp hp
      subst this
      cases h
      exact List.Perm.refl _
    · by_cases hle : entryLE x m
      · rw [if_pos hle] at h
        cases h
        exact List.Perm.refl _
      · rw [if_neg hle] at h
        cases h
        exact ((popMin_perm hp).cons x).trans (List.Perm.swap e x r.val)

/-- The popped entry is minimal in the heap order. -/
theorem popMin_min : ∀ {l : List HeapEntry} {e : HeapEntry}
    {rest : {rest : List HeapEntry // rest.length + 1 = l.length}},
    popMin l = some (e, rest) → ∀ x ∈ l, entryLE e x
  | [], _, _, h => by cases h
  | x :: xs, e, rest, h => by
    rw [popMin] at h
    rcases hp : popMin xs with _ | ⟨m, r⟩ <;> rw [hp] at h <;> simp only at h
    · have := popMin_eq_none.mp hp
      subst this
      cases h
      intro y hy
      rcases List.mem_singleton.mp hy with rfl
      exact entryLE_refl y
    · by_cases hle : entryLE x m
      · rw [if_pos hle] at h
        cases h
        intro y hy
        rcases List.mem_cons.mp hy with rfl | hy'
        · exact entryLE_refl y
        · exact entryLE_trans hle (popMin_min hp y hy')
      · rw [if_neg hle] at h
        cases h
        intro y hy
        rcases List.mem_cons.mp hy with rfl | hy'
        · rcases entryLE_total e y with h | h
          · exact h
          · exact absurd h hle
        · exact popMin_min hp y hy'

/-! ## Helper lemmas: files (C3) -/

/-- A non-exhausted file index is in range. -/
theorem fileAt_pos {files : List (List PRec)} {i : Nat} (h : fileAt files i ≠ []) :
    i < files.length := by
  by_contra hn
  apply h
  unfold fileAt
  rw [List.getD_eq_default]
  omega

/-- Reading a file the read advanced. -/
theorem fileAt_set_self : ∀ (files : List (List PRec)) (i : Nat) (v : List PRec),
    i < files.length → fileAt (files.set i v) i = v
  | [], i, v, h => by simp at h
  | f :: fs, 0, v, _ => rfl
  | f :: fs, i + 1, v, h => by
    simpa [fileAt, List.set] using fileAt_set_self fs i v (by simpa using h)

/-- Reading a file another read advanced. -/
theorem fileAt_set_ne : ∀ (files : List (List PRec)) (i j : Nat) (v : List PRec),
    j ≠ i → fileAt (files.set i v) j = fileAt files j
  | [], _, _, _, _ => rfl
  | f :: fs, 0, 0, v, h => absurd rfl h
  | f :: fs, 0, j + 1, v, _ => rfl
  | f :: fs, i + 1, 0, v, _ => rfl
  | f :: fs, i + 1, j + 1, v, h =>
    fileAt_set_ne fs i j v (fun hc => h (by omega))

/-- If every file is exhausted, nothing remains. -/
theorem flatten_eq_nil_of_all_nil : ∀ (files : List (List PRec)),
    (∀ i, i < files.length → fileAt files i = []) → files.flatten = []
  | [], _ => rfl
  | f :: fs, h => by
    have h0 : f = [] := h 0 (by simp)
    have hrest : fs.flatten = [] :=
      flatten_eq_nil_of_all_nil fs (fun i hi => h (i + 1) (by simpa using hi))
    simp [h0, hrest]

/-- Advancing one read moves exactly one record out of the files. -/
theorem flatten_set_perm : ∀ (files : List (List PRec)) (i : Nat) (r : PRec) (rs : List PRec),
    fileAt files i = r :: rs → files.flatten.Perm (r :: (files.set i rs).flatten)
  | [], i, r, rs, h => by simp [fileAt] at h
  | f :: fs, 0, r, rs, h => by
    have : f = r :: rs := h
    subst this
    simp
  | f :: fs, i + 1, r, rs, h => by
    have ih := flatten_set_perm fs i r rs h
    simp only [List.set, List.flatten_cons]
    exact (ih.append_left f).trans List.perm_middle

/-- Every remaining record lives in some in-range file. -/
theorem mem_flatten_fileAt : ∀ (files : List (List PRec)) (x : PRec),
    x ∈ files.flatten → ∃ i, i < files.length ∧ x ∈ fileAt files i
  | [], x, h => by simp at h
  | f :: fs, x, h => by
    rw [List.flatten_cons, List.mem_append] at h
    rcases h with h | h
    · exact ⟨0, by simp, h⟩
    · rcases mem_flatten_fileAt fs x h with ⟨i, hi, hmem⟩
      exact ⟨i + 1, by simpa using hi, hmem⟩

/-- Characterization of `advanceFile` on an exhausted file. -/
theorem advanceFile_nil : ∀ (files : List (List PRec)) (i : Nat),
    fileAt files i = [] → (advanceFile files i).val = (none, files)
  | [], _, _ => rfl
  | [] :: fs, 0, _ => rfl
  | (r :: rs) :: fs, 0, h => by cases h
  | f :: fs, i + 1, h => by
    have ih := advanceFile_nil fs i h
    simp only [advanceFile]
    rw [ih]

/-- Characterization of `advanceFile` on a file with a next record. -/
theorem advanceFile_cons : ∀ (files : List (List PRec)) (i : Nat) (r : PRec) (rs : List PRec),
    fileAt files i = r :: rs → (advanceFile files i).val = (some r, files.set i rs)
  | [], i, r, rs, h => by simp [fileAt] at h
  | [] :: fs, 0, r, rs, h => by cases h
  | (x :: xs) :: fs, 0, r, rs, h => by
    have h1 : x = r := by injection h
    have h2 : xs = rs := by injection h
    subst h1; subst h2
    rfl
  | f :: fs, i + 1, r, rs, h => by
    have ih := advanceFile_cons fs i r rs h
    simp only [advanceFile]
    rw [ih]
    rfl

/-! ## Helper lemmas: the posting map (C3, C7) -/

/-- A present docid is found by `any`. -/
theorem any_key_iff_lookup (m : PMap) (d : Nat) :
    m.any (fun e => e.1 == d) = true ↔ lookupM m d ≠ none := by
  induction m with
  | nil => simp [lookupM]
  | cons e m ih =>
    by_cases h : e.1 = d
    · simp [lookupM, List.find?, h]
    · have hbeq : (e.1 == d) = false := by simpa using h
      simp only [List.any_cons, hbeq, Bool.false_or, lookupM, List.find?_cons, hbeq]
      exact ih

/-- Keys after `addPosting`: unchanged on an update, the new docid appended
on an insert. -/
theorem addPosting_keys (m : PMap) (p : MPost) :
    (addPosting m p).map Prod.fst =
      if m.any (fun e => e.1 == p.docid) then m.map Prod.fst
      else m.map Prod.fst ++ [p.docid] := by
  unfold addPosting
  split
  · rw [List.map_map]
    apply List.map_congr_left
    intro e _
    by_cases h : e.1 = p.docid <;> simp [h]
  · simp

/-- `addPosting` keeps the keys distinct. -/
theorem addPosting_nodup (m : PMap) (p : MPost) (hnd : (m.map Prod.fst).Nodup) :
    ((addPosting m p).map Prod.fst).Nodup := by
  rw [addPosting_keys]
  split
  · exact hnd
  · rename_i hany
    rw [List.nodup_append]
    refine ⟨hnd, List.nodup_singleton _, ?_⟩
    intro k hk hk'
    rcases List.mem_singleton.mp hk' with rfl
    rcases List.mem_map.mp hk with ⟨e, he, hkey⟩
    have : m.any (fun e => e.1 == p.docid) = true :=
      List.any_eq_true.mpr ⟨e, he, by simpa using hkey⟩
    exact absurd this (by simpa using hany)

/-- Lookup in a map extended by a fresh trailing entry. -/
theorem lookupM_append_single (m : PMap) (k : Nat) (v : Nat × Finset String) (d : Nat) :
    lookupM (m ++ [(k, v)]) d =
      match lookupM m d with
      | some w => some w
      | none => if k = d then some v else none := by
  induction m with
  | nil =>
    by_cases h : k = d
    · simp [lookupM, List.find?, h]
    · have : (k == d) = false := by simpa using h
      simp [lookupM, List.find?, this, h]
  | cons e m ih =>
    by_cases h : e.1 = d
    · have : (e.1 == d) = true := by simpa using h
      simp [lookupM, List.find?_cons, this]
    · have hbeq : (e.1 == d) = false := by simpa using h
      simp only [List.cons_append, lookupM, List.find?_cons, hbeq]
      exact ih

/-- Lookup in the in-place update of an existing docid. -/
theorem lookupM_map_update (m : PMap) (p : MPost) (d : Nat) :
    lookupM (m.map (fun e => if e.1 = p.docid then (e.1, e.2.1 + p.tf, e.2.2 ∪ p.fields) else e)) d =
      if d = p.docid then
        (lookupM m d).map (fun v => (v.1 + p.tf, v.2 ∪ p.fields))
      else lookupM m d := by
  induction m with
  | nil => by_cases h : d = p.docid <;> simp [lookupM, h]
  | cons e m ih =>
    have hkey : (if e.1 = p.docid then (e.1, e.2.1 + p.tf, e.2.2 ∪ p.fields) else e).1 = e.1 := by
      by_cases h : e.1 = p.docid <;> simp [h]
    by_cases h : e.1 = d
    · have hbeq : ((if e.1 = p.docid then (e.1, e.2.1 + p.tf, e.2.2 ∪ p.fields) else e).1 == d) = true := by
        rw [hkey]
        simpa using h
      have hbeq2 : (e.1 == d) = true := by simpa using h
      simp only [List.map_cons, lookupM, List.find?_cons, hbeq, hbeq2, Option.map_some]
      by_cases hpd : d = p.docid
      · rw [if_pos hpd]
        have : e.1 = p.docid := h.trans hpd
        simp [this]
      · rw [if_neg hpd]
        have : ¬ e.1 = p.docid := fun hc => hpd (h.symm.trans hc)
        simp [this]
    · have hbeq : ((if e.1 = p.docid then (e.1, e.2.1 + p.tf, e.2.2 ∪ p.fields) else e).1 == d) = false := by
        rw [hkey]
        simpa using h
      have hbeq2 : (e.1 == d) = false := by simpa using h
      simp only [List.map_cons, lookupM, List.find?_cons, hbeq, hbeq2]
      exact ih

/-- Full characterization of one `addPosting` step. -/
theorem lookupM_addPosting (m : PMap) (p : MPost) (d : Nat) :
    lookupM (addPosting m p) d =
      if d = p.docid then
        match lookupM m p.docid with
        | some v => some (v.1 + p.tf, v.2 ∪ p.fields)
        | none => some (p.tf, p.fields)
      else lookupM m d := by
  unfold addPosting
  split
  · rename_i hany
    rw [lookupM_map_update]
    by_cases h : d = p.docid
    · rw [if_pos h, if_pos h, h]
      rcases hl : lookupM m p.docid with _ | v
      · exact absurd hl ((any_key_iff_lookup m p.docid).mp hany)
      · rfl
    · rw [if_neg h, if_neg h]
  · rename_i hany
    rw [lookupM_append_single]
    by_cases h : d = p.docid
    · rcases hl : lookupM m d with _ | v
      · rw [if_pos h, if_pos h.symm, ← h, hl]
      · exfalso
        have : lookupM m p.docid ≠ none := by rw [← h, hl]; simp
        exact absurd ((any_key_iff_lookup m p.docid).mpr this) (by simpa using hany)
    · rw [if_neg h]
      rcases hl : lookupM m d with _ | v
      · rw [if_neg (fun hc => h hc.symm)]
      · rfl

/-! ## Helper lemmas: contributions (C3) -/

/-- A postings list not mentioning `d` contributes no `tf`. -/
theorem sumTfIn_eq_zero {ps : List MPost} {d : Nat} (h : occursIn ps d = false) :
    sumTfIn ps d = 0 := by
  induction ps with
  | nil => rfl
  | cons p ps ih =>
    rw [occursIn, List.any_cons, Bool.or_eq_false_iff] at h
    have h1 : p.docid ≠ d := by simpa using h.1
    rw [sumTfIn, List.map_cons, List.sum_cons, if_neg h1, Nat.zero_add]
    exact ih (by rw [occursIn]; exact h.2)

/-- A postings list not mentioning `d` contributes no fields. -/
theorem fieldsIn_eq_empty {ps : List MPost} {d : Nat} (h : occursIn ps d = false) :
    fieldsIn ps d = ∅ := by
  induction ps with
  | nil => rfl
  | cons p ps ih =>
    rw [occursIn, List.any_cons, Bool.or_eq_false_iff] at h
    have h1 : p.docid ≠ d := by simpa using h.1
    rw [fieldsIn, List.foldr_cons, if_neg h1]
    exact ih (by rw [occursIn]; exact h.2)

/-- `addPostings` computes exactly `mergeVal` at every docid. -/
theorem lookupM_addPostings : ∀ (ps : List MPost) (m : PMap) (d : Nat),
    lookupM (addPostings m ps) d = mergeVal (lookupM m d) ps d
  | [], m, d => by simp [addPostings, mergeVal, occursIn]
  | p :: ps, m, d => by
    have step : addPostings m (p :: ps) = addPostings (addPosting m p) ps := rfl
    rw [step, lookupM_addPostings ps (addPosting m p) d, lookupM_addPosting]
    by_cases hd : d = p.docid
    · rw [if_pos hd, hd]
      have hocc : occursIn (p :: ps) p.docid = true := by
        rw [occursIn, List.any_cons]
        simp
      have hsum : sumTfIn (p :: ps) p.docid = p.tf + sumTfIn ps p.docid := by
        rw [sumTfIn, List.map_cons, List.sum_cons, if_pos rfl]
        rfl
      have hfld : fieldsIn (p :: ps) p.docid = p.fields ∪ fieldsIn ps p.docid := by
        rw [fieldsIn, List.foldr_cons, if_pos rfl]
        rfl
      rcases hm : lookupM m p.docid with _ | v
      · by_cases ho : occursIn ps p.docid = true
        · rw [mergeVal, if_pos ho, mergeVal, hocc, if_pos rfl, hsum, hfld]
          simp [Nat.add_assoc, Finset.union_assoc]
        · have h0 : occursIn ps p.docid = false := by simpa using ho
          rw [mergeVal, h0, if_neg (by simp), mergeVal, hocc, if_pos rfl, hsum, hfld,
            sumTfIn_eq_zero h0, fieldsIn_eq_empty h0]
          simp
      · by_cases ho : occursIn ps p.docid = true
        · rw [mergeVal, if_pos ho, mergeVal, hocc, if_pos rfl, hsum, hfld]
          simp [Nat.add_assoc, Finset.union_assoc]
        · have h0 : occursIn ps p.docid = false := by simpa using ho
          rw [mergeVal, h0, if_neg (by simp), mergeVal, hocc, if_pos rfl, hsum, hfld,
            sumTfIn_eq_zero h0, fieldsIn_eq_empty h0]
          simp
    · have hne : (p.docid == d) = false := by simpa using fun hc => hd hc.symm
      rw [if_neg hd]
      have hocc : occursIn (p :: ps) d = occursIn ps d := by
        rw [occursIn, List.any_cons, hne, Bool.false_or, occursIn]
      have hsum : sumTfIn (p :: ps) d = sumTfIn ps d := by
        rw [sumTfIn, List.map_cons, List.sum_cons, if_neg (fun hc => hd hc.symm), Nat.zero_add,
          sumTfIn]
      have hfld : fieldsIn (p :: ps) d = fieldsIn ps d := by
        rw [fieldsIn, List.foldr_cons, if_neg (fun hc => hd hc.symm), fieldsIn]
      rw [mergeVal, mergeVal, hocc, hsum, hfld]

/-- `addPostings` keeps the keys distinct. -/
theorem addPostings_nodup : ∀ (ps : List MPost) (m : PMap),
    (m.map Prod.fst).Nodup → ((addPostings m ps).map Prod.fst).Nodup
  | [], m, h => h
  | p :: ps, m, h => addPostings_nodup ps (addPosting m p) (addPosting_nodup m p h)

/-- Contribution of a concatenation. -/
theorem tfContrib_append (rs1 rs2 : List PRec) (t : String) (d : Nat) :
    tfContrib (rs1 ++ rs2) t d = tfContrib rs1 t d + tfContrib rs2 t d := by
  unfold tfContrib
  rw [List.map_append, List.sum_append]

/-- Fields of a concatenation (first a fold-accumulator lemma). -/
theorem fieldsContrib_foldr_acc (rs : List PRec) (t : String) (d : Nat) :
    ∀ (A : Finset String),
      rs.foldr (fun r acc => if r.token = t then fieldsIn r.postings d ∪ acc else acc) A =
        rs.foldr (fun r acc => if r.token = t then fieldsIn r.postings d ∪ acc else acc) ∅ ∪ A := by
  induction rs with
  | nil =>
    intro A
    simp
  | cons r rs ih =>
    intro A
    rw [List.foldr_cons, List.foldr_cons]
    by_cases h : r.token = t
    · rw [if_pos h, if_pos h, ih A, Finset.union_assoc]
    · rw [if_neg h, if_neg h, ih A]

/-- Contribution of fields of a concatenation. -/
theorem fieldsContrib_append (rs1 rs2 : List PRec) (t : String) (d : Nat) :
    fieldsContrib (rs1 ++ rs2) t d = fieldsContrib rs1 t d ∪ fieldsContrib rs2 t d := by
  unfold fieldsContrib
  rw [List.foldr_append]
  exact fieldsContrib_foldr_acc rs1 t d _

/-- Occurrence in a concatenation. -/
theorem OccursC_append (rs1 rs2 : List PRec) (t : String) (d : Nat) :
    OccursC (rs1 ++ rs2) t d ↔ OccursC rs1 t d ∨ OccursC rs2 t d := by
  unfold OccursC
  constructor
  · rintro ⟨r, hr, ht, ho⟩
    rcases List.mem_append.mp hr with h | h
    · exact Or.inl ⟨r, h, ht, ho⟩
    · exact Or.inr ⟨r, h, ht, ho⟩
  · rintro (⟨r, hr, ht, ho⟩ | ⟨r, hr, ht, ho⟩)
    · exact ⟨r, List.mem_append.mpr (Or.inl hr), ht, ho⟩
    · exact ⟨r, List.mem_append.mpr (Or.inr hr), ht, ho⟩

/-- Records of other tokens contribute no `tf`. -/
theorem tfContrib_eq_zero {rs : List PRec} {t : String} (d : Nat)
    (h : ∀ r ∈ rs, r.token ≠ t) : tfContrib rs t d = 0 := by
  unfold tfContrib
  rw [List.sum_eq_zero]
  intro x hx
  rcases List.mem_map.mp hx with ⟨r, hr, rfl⟩
  rw [if_neg (h r hr)]

/-- Records of other tokens contribute no fields. -/
theorem fieldsContrib_eq_empty {rs : List PRec} {t : String} (d : Nat)
    (h : ∀ r ∈ rs, r.token ≠ t) : fieldsContrib rs t d = ∅ := by
  induction rs with
  | nil => rfl
  | cons r rs ih =>
    rw [fieldsContrib, List.foldr_cons, if_neg (h r (List.mem_cons_self r rs))]
    exact ih (fun x hx => h x (List.mem_cons_of_mem r hx))

/-- Records of other tokens do not occur. -/
theorem not_OccursC {rs : List PRec} {t : String} (d : Nat)
    (h : ∀ r ∈ rs, r.token ≠ t) : ¬ OccursC rs t d := by
  rintro ⟨r, hr, ht, _⟩
  exact h r hr ht

/-- `tf` contributions are permutation-invariant. -/
theorem tfContrib_perm {rs1 rs2 : List PRec} (h : rs1.Perm rs2) (t : String) (d : Nat) :
    tfContrib rs1 t d = tfContrib rs2 t d :=
  (h.map _).sum_eq

/-- Field contributions are permutation-invariant. -/
theorem fieldsContrib_perm {rs1 rs2 : List PRec} (h : rs1.Perm rs2) (t : String) (d : Nat) :
    fieldsContrib rs1 t d = fieldsContrib rs2 t d := by
  induction h with
  | nil => rfl
  | cons r p ih =>
    unfold fieldsContrib
    rw [List.foldr_cons, List.foldr_cons]
    unfold fieldsContrib at ih
    rw [ih]
  | swap x y l =>
    show fieldsContrib (y :: x :: l) t d = fieldsContrib (x :: y :: l) t d
    unfold fieldsContrib
    rw [List.foldr_cons, List.foldr_cons, List.foldr_cons, List.foldr_cons]
    by_cases hx : x.token = t <;> by_cases hy : y.token = t <;>
      simp [hx, hy, Finset.union_left_comm]
  | trans _ _ ih1 ih2 => exact ih1.trans ih2

/-- Occurrence is permutation-invariant. -/
theorem OccursC_perm {rs1 rs2 : List PRec} (h : rs1.Perm rs2) (t : String) (d : Nat) :
    OccursC rs1 t d ↔ OccursC rs2 t d := by
  unfold OccursC
  constructor <;> rintro ⟨r, hr, ht, ho⟩
  · exact ⟨r, h.mem_iff.mp hr, ht, ho⟩
  · exact ⟨r, h.mem_iff.mpr hr, ht, ho⟩

/-- When the remainder holds no record of token `t`, the contributions of
the full input and of the consumed part coincide. -/
theorem contrib_of_partition {allRecs consumed rem : List PRec} {t : String}
    (hperm : allRecs.Perm (consumed ++ rem)) (hrem : ∀ r ∈ rem, r.token ≠ t) (d : Nat) :
    tfContrib allRecs t d = tfContrib consumed t d ∧
    fieldsContrib allRecs t d = fieldsContrib consumed t d ∧
    (OccursC allRecs t d ↔ OccursC consumed t d) := by
  refine ⟨?_, ?_, ?_⟩
  · rw [tfContrib_perm hperm, tfContrib_append, tfContrib_eq_zero d hrem, Nat.add_zero]
  · rw [fieldsContrib_perm hperm, fieldsContrib_append, fieldsContrib_eq_empty d hrem,
      Finset.union_empty]
  · rw [OccursC_perm hperm, OccursC_append]
    have := not_OccursC d hrem
    tauto

/-! ## Helper lemmas: emitted records (C3) -/

/-- No occurrence means no `tf` contribution. -/
theorem tfContrib_eq_zero_of_not_occurs {rs : List PRec} {t : String} {d : Nat}
    (h : ¬ OccursC rs t d) : tfContrib rs t d = 0 := by
  unfold tfContrib
  rw [List.sum_eq_zero]
  intro x hx
  rcases List.mem_map.mp hx with ⟨r, hr, rfl⟩
  by_cases ht : r.token = t
  · rw [if_pos ht]
    rcases ho : occursIn r.postings d with _ | _
    · exact sumTfIn_eq_zero ho
    · exact absurd ⟨r, hr, ht, ho⟩ h
  · rw [if_neg ht]

/-- No occurrence means no field contribution. -/
theorem fieldsContrib_eq_empty_of_not_occurs {rs : List PRec} {t : String} {d : Nat}
    (h : ¬ OccursC rs t d) : fieldsContrib rs t d = ∅ := by
  induction rs with
  | nil => rfl
  | cons r rs ih =>
    have hr : ¬ OccursC rs t d := fun ⟨x, hx, hx2, hx3⟩ =>
      h ⟨x, List.mem_cons_of_mem r hx, hx2, hx3⟩
    rw [fieldsContrib, List.foldr_cons]
    by_cases ht : r.token = t
    · rw [if_pos ht]
      rcases ho : occursIn r.postings d with _ | _
      · rw [fieldsIn_eq_empty ho, Finset.empty_union]
        exact ih hr
      · exact absurd ⟨r, List.mem_cons_self r rs, ht, ho⟩ h
    · rw [if_neg ht]
      exact ih hr

/-- The emitted postings list is a permutation of the map's entries. -/
theorem emitMap_perm (m : PMap) :
    (emitMap m).Perm (m.map (fun e => (⟨e.1, e.2.1, e.2.2⟩ : MPost))) := by
  unfold emitMap sortAscBy
  exact (List.perm_insertionSort _ m).map _

/-- Emitted docids are strictly increasing when the map keys are distinct. -/
theorem emitMap_chain (m : PMap) (hnd : (m.map Prod.fst).Nodup) :
    List.Chain' (· < ·) ((emitMap m).map MPost.docid) := by
  unfold emitMap sortAscBy
  haveI : IsTotal (ℕ × ℕ × Finset String) (fun a b => a.1 ≤ b.1) :=
    ⟨fun a b => le_total a.1 b.1⟩
  haveI : IsTrans (ℕ × ℕ × Finset String) (fun a b => a.1 ≤ b.1) :=
    ⟨fun _ _ _ h1 h2 => le_trans h1 h2⟩
  have hsorted : List.Pairwise (fun (a b : ℕ × ℕ × Finset String) => a.1 ≤ b.1)
      (List.insertionSort (fun a b => a.1 ≤ b.1) m) :=
    List.sorted_insertionSort _ m
  have hperm := List.perm_insertionSort (fun (a b : ℕ × ℕ × Finset String) => a.1 ≤ b.1) m
  have hnd2 : ((List.insertionSort (fun a b => a.1 ≤ b.1) m).map Prod.fst).Nodup :=
    (hperm.map Prod.fst).nodup_iff.mpr hnd
  have hne : List.Pairwise (fun (a b : ℕ × ℕ × Finset String) => a.1 ≠ b.1)
      (List.insertionSort (fun a b => a.1 ≤ b.1) m) :=
    List.pairwise_map.mp hnd2
  have hlt : List.Pairwise (fun (a b : ℕ × ℕ × Finset String) => a.1 < b.1)
      (List.insertionSort (fun a b => a.1 ≤ b.1) m) :=
    (hsorted.and hne).imp (fun h => lt_of_le_of_ne h.1 h.2)
  rw [List.map_map, List.chain'_iff_pairwise, List.pairwise_map]
  exact hlt

/-- Lookup returns the entry of a distinct-key map it belongs to. -/
theorem lookupM_of_mem : ∀ (m : PMap), (m.map Prod.fst).Nodup →
    ∀ e : Nat × Nat × Finset String, e ∈ m → lookupM m e.1 = some e.2
  | [], _, e, he => by cases he
  | x :: m, hnd, e, he => by
    simp only [List.map_cons, List.nodup_cons] at hnd
    rcases List.mem_cons.mp he with rfl | he'
    · simp [lookupM, List.find?_cons]
    · have hx : x.1 ≠ e.1 := by
        intro hc
        exact hnd.1 (hc ▸ List.mem_map.mpr ⟨e, he', rfl⟩)
      have hbeq : (x.1 == e.1) = false := by simpa using hx
      rw [lookupM, List.find?_cons, hbeq]
      exact lookupM_of_mem m hnd.2 e he'

/-- Every emitted posting carries the map's value at its docid. -/
theorem emitMap_mem_lookup (m : PMap) (hnd : (m.map Prod.fst).Nodup) (p : MPost)
    (hp : p ∈ emitMap m) : lookupM m p.docid = some (p.tf, p.fields) := by
  unfold emitMap sortAscBy at hp
  rcases List.mem_map.mp hp with ⟨e, he, rfl⟩
  have he' : e ∈ m := (List.perm_insertionSort _ m).mem_iff.mp he
  simpa using lookupM_of_mem m hnd e he'

/-- Appending one upper bound to a chain. -/
theorem chain'_append_one {α : Type} (R : α → α → Prop) (xs : List α) (y : α)
    (hc : List.Chain' R xs) (h : ∀ x ∈ xs, R x y) : List.Chain' R (xs ++ [y]) := by
  apply List.Chain'.append hc (List.chain'_singleton y)
  intro a ha b hb
  have hb' : y = b := by simpa using hb
  subst hb'
  exact h a (List.mem_of_mem_getLast? ha)

/-- The head of a `≤`-chain bounds every later element. -/
theorem head_le_of_chain' {l : List String} {a : String}
    (hc : List.Chain' (· ≤ ·) (a :: l)) : ∀ b ∈ l, a ≤ b := by
  rw [List.chain'_iff_pairwise] at hc
  exact fun b hb => List.rel_of_pairwise_cons hc hb

/-! ## Helper lemmas: the accumulator invariant (C3) -/

/-- A fresh accumulator is correct for a token none of the consumed records
carries. -/
theorem mapOK_fresh {consumed : List PRec} {t : String}
    (h : ∀ r ∈ consumed, r.token ≠ t) : MapOK consumed t [] := by
  refine ⟨List.nodup_nil, ?_⟩
  intro d
  rw [if_neg (not_OccursC d h)]
  rfl

/-- Absorbing a record of the current token preserves `MapOK`. -/
theorem mapOK_absorb {consumed : List PRec} {t : String} {m : PMap} (h : MapOK consumed t m)
    (ps : List MPost) : MapOK (consumed ++ [⟨t, ps⟩]) t (addPostings m ps) := by
  obtain ⟨hnd, hval⟩ := h
  refine ⟨addPostings_nodup ps m hnd, ?_⟩
  intro d
  rw [lookupM_addPostings, hval d]
  have hts : tfContrib [(⟨t, ps⟩ : PRec)] t d = sumTfIn ps d := by
    simp [tfContrib]
  have hfs : fieldsContrib [(⟨t, ps⟩ : PRec)] t d = fieldsIn ps d := by
    simp [fieldsContrib]
  have hos : OccursC [(⟨t, ps⟩ : PRec)] t d ↔ occursIn ps d = true := by
    simp [OccursC]
  rw [tfContrib_append, fieldsContrib_append, hts, hfs]
  by_cases hoc : OccursC consumed t d <;> by_cases ho : occursIn ps d = true
  · rw [if_pos hoc, if_pos (by rw [OccursC_append]; exact Or.inl hoc), mergeVal, if_pos ho]
    simp
  · have ho' : occursIn ps d = false := by simpa using ho
    rw [if_pos hoc, if_pos (by rw [OccursC_append]; exact Or.inl hoc), mergeVal, ho']
    rw [if_neg (by simp)]
    rw [sumTfIn_eq_zero ho', fieldsIn_eq_empty ho']
    simp
  · rw [if_neg hoc, if_pos (by rw [OccursC_append]; exact Or.inr (hos.mpr ho)), mergeVal,
      if_pos ho, tfContrib_eq_zero_of_not_occurs hoc, fieldsContrib_eq_empty_of_not_occurs hoc]
    simp
  · rw [if_neg hoc, mergeVal]
    rw [if_neg (by simpa using ho)]
    rw [if_neg (by
      rw [OccursC_append]
      rintro (hc | hc)
      · exact hoc hc
      · exact ho (hos.mp hc))]

/-- Emitting the accumulated record yields a correct output line, provided
no remaining record carries its token. -/
theorem emit_outOK {allRecs consumed rem : List PRec} {t : String} {m : PMap}
    (hmok : MapOK consumed t m) (hperm : allRecs.Perm (consumed ++ rem))
    (hrem : ∀ r ∈ rem, r.token ≠ t) : OutOK allRecs ⟨t, emitMap m⟩ := by
  obtain ⟨hnd, hval⟩ := hmok
  constructor
  · exact emitMap_chain m hnd
  · intro p hp
    have hl := ((hval p.docid).symm.trans (emitMap_mem_lookup m hnd p hp))
    by_cases ho : OccursC consumed t p.docid
    · rw [if_pos ho] at hl
      injection hl with hl
      obtain ⟨htf, hfl, _⟩ := contrib_of_partition hperm hrem p.docid
      constructor
      · rw [htf]
        exact (congrArg Prod.fst hl).symm
      · rw [hfl]
        exact (congrArg Prod.snd hl).symm
    · rw [if_neg ho] at hl
      cases hl

/-! ## The merge-loop invariant: step and base (C3) -/

/-- The heap order bounds tokens. -/
theorem entryLE_token {a b : HeapEntry} (h : entryLE a b) : a.token ≤ b.token := by
  rcases h with h | ⟨h, _⟩
  · exact le_of_lt h
  · exact le_of_eq h

/-- Effect of one pop on the accumulator, the output and the consumed set:
everything of `MergeInv` that does not mention the heap or the files.
`heap2` is the next heap, constrained only by a token lower bound. -/
theorem step_cur_out {allRecs consumed : List PRec} {heap heap2 : List HeapEntry}
    {files : List (List PRec)} {cur : Option (String × PMap)} {out : List PRec}
    (inv : MergeInv allRecs consumed heap files cur out)
    {e : HeapEntry} (hemem : e ∈ heap) (hmin : ∀ x ∈ heap, entryLE e x)
    (hlb2 : ∀ x ∈ heap2, e.token ≤ x.token) :
    GoodOut allRecs (stepOut cur e out) ∧
    (∀ t2 m2, stepCur cur e = some (t2, m2) →
      (∀ x ∈ heap2, t2 ≤ x.token) ∧
      MapOK (consumed ++ [⟨e.token, e.postings⟩]) t2 m2 ∧
      (∀ r ∈ consumed ++ [⟨e.token, e.postings⟩], r.token ≤ t2) ∧
      (∀ o ∈ stepOut cur e out, o.token < t2)) := by
  rcases hcur : cur with _ | ⟨t, m⟩
  · -- no token accumulating yet: out and consumed are empty
    obtain ⟨hout0, hcons0⟩ := inv.hnone hcur
    subst hout0
    subst hcons0
    constructor
    · exact ⟨List.chain'_nil, fun o ho => absurd ho (List.not_mem_nil o)⟩
    · intro t2 m2 h
      rw [stepCur] at h
      injection h with h
      injection h with h1 h2
      subst h1
      subst h2
      refine ⟨hlb2, ?_, ?_, ?_⟩
      · exact mapOK_absorb (@mapOK_fresh [] e.token
          (fun r hr => absurd hr (List.not_mem_nil r))) e.postings
      · intro r hr
        rcases List.mem_singleton.mp (by simpa using hr) with rfl
        exact le_refl _
      · intro o ho
        simp only [stepOut] at ho
        cases ho
  · obtain ⟨hheapLB, hmok, hcons, houtlt⟩ := inv.hsome t m hcur
    by_cases heq : e.token = t
    · -- same token: absorb, no emit
      constructor
      · rw [stepOut, if_pos heq]
        exact inv.hout
      · intro t2 m2 h
        rw [stepCur, if_pos heq] at h
        injection h with h
        injection h with h1 h2
        subst h1
        subst h2
        refine ⟨fun x hx => heq ▸ hlb2 x hx, ?_, ?_, ?_⟩
        · have := mapOK_absorb hmok e.postings
          rw [heq]
          exact this
        · intro r hr
          rcases List.mem_append.mp hr with hr | hr
          · exact hcons r hr
          · rcases List.mem_singleton.mp hr with rfl
            exact le_of_eq heq
        · rw [stepOut, if_pos heq]
          exact houtlt
    · -- token change: emit the accumulated record
      have hlt : t < e.token := lt_of_le_of_ne (hheapLB e hemem) (fun hc => heq hc.symm)
      have hremNoT : ∀ r ∈ remRecs heap files, r.token ≠ t := by
        intro r hr
        rcases List.mem_append.mp hr with hr | hr
        · rcases List.mem_map.mp hr with ⟨x, hx, rfl⟩
          have : e.token ≤ x.token := entryLE_token (hmin x hx)
          exact ne_of_gt (lt_of_lt_of_le hlt this)
        · rcases mem_flatten_fileAt files r hr with ⟨i, hi, hmem⟩
          have hne : fileAt files i ≠ [] := fun hc => by
            rw [hc] at hmem
            cases hmem
          rcases inv.hcover i hi hne with ⟨x, hx, rfl⟩
          have h1 : x.token ≤ r.token := inv.hfileLB x hx r hmem
          have h2 : e.token ≤ x.token := entryLE_token (hmin x hx)
          exact ne_of_gt (lt_of_lt_of_le hlt (le_trans h2 h1))
      have hOK : OutOK allRecs ⟨t, emitMap m⟩ := emit_outOK hmok inv.hperm hremNoT
      have hout2 : GoodOut allRecs (out ++ [⟨t, emitMap m⟩]) := by
        constructor
        · rw [List.map_append]
          apply chain'_append_one _ _ _ inv.hout.1
          intro x hx
          rcases List.mem_map.mp hx with ⟨o, ho, rfl⟩
          exact houtlt o ho
        · intro o ho
          rcases List.mem_append.mp ho with ho | ho
          · exact inv.hout.2 o ho
          · rcases List.mem_singleton.mp ho with rfl
            exact hOK
      constructor
      · rw [stepOut, if_neg heq]
        exact hout2
      · intro t2 m2 h
        rw [stepCur, if_neg heq] at h
        injection h with h
        injection h with h1 h2
        subst h1
        subst h2
        refine ⟨hlb2, ?_, ?_, ?_⟩
        · apply mapOK_absorb (mapOK_fresh ?_) e.postings
          intro r hr
          exact ne_of_lt (lt_of_le_of_lt (hcons r hr) hlt)
        · intro r hr
          rcases List.mem_append.mp hr with hr | hr
          · exact le_of_lt (lt_of_le_of_lt (hcons r hr) hlt)
          · rcases List.mem_singleton.mp hr with rfl
            exact le_refl _
        · rw [stepOut, if_neg heq]
          intro o ho
          rcases List.mem_append.mp ho with ho | ho
          · exact lt_trans (houtlt o ho) hlt
          · rcases List.mem_singleton.mp ho with rfl
            exact hlt

/-- `stepCur` never clears the accumulator. -/
theorem stepCur_ne_none (cur : Option (String × PMap)) (e : HeapEntry) :
    stepCur cur e ≠ none := by
  rcases cur with _ | ⟨t, m⟩
  · simp [stepCur]
  · rw [stepCur]
    split <;> simp

/-- One loop iteration on an exhausted file preserves the invariant. -/
theorem inv_step_nil {allRecs consumed : List PRec} {heap : List HeapEntry}
    {files : List (List PRec)} {cur : Option (String × PMap)} {out : List PRec}
    (inv : MergeInv allRecs consumed heap files cur out)
    {e : HeapEntry} {rest : {r : List HeapEntry // r.length + 1 = heap.length}}
    (hp : popMin heap = some (e, rest))
    (hfa : fileAt files e.idx = []) :
    MergeInv allRecs (consumed ++ [⟨e.token, e.postings⟩]) rest.val files
      (stepCur cur e) (stepOut cur e out) := by
  have hP := popMin_perm hp
  have hmin := popMin_min hp
  have hemem : e ∈ heap := hP.mem_iff.mpr (List.mem_cons_self _ _)
  have hmemr : ∀ x ∈ rest.val, x ∈ heap := fun x hx => hP.mem_iff.mpr (List.mem_cons_of_mem _ hx)
  have hlb2 : ∀ x ∈ rest.val, e.token ≤ x.token := fun x hx => entryLE_token (hmin x (hmemr x hx))
  obtain ⟨hout2, hcur2⟩ := step_cur_out inv hemem hmin hlb2
  have hidxperm : (heap.map HeapEntry.idx).Perm (e.idx :: rest.val.map HeapEntry.idx) := by
    simpa using hP.map HeapEntry.idx
  have hnod : (e.idx :: rest.val.map HeapEntry.idx).Nodup := hidxperm.nodup_iff.mp inv.hnodupIdx
  have hperm2 : allRecs.Perm
      ((consumed ++ [⟨e.token, e.postings⟩]) ++ remRecs rest.val files) := by
    have h1 : (heapRecs heap).Perm ((⟨e.token, e.postings⟩ : PRec) :: heapRecs rest.val) := by
      simpa [heapRecs] using hP.map (fun x => (⟨x.token, x.postings⟩ : PRec))
    have h2 : (remRecs heap files).Perm
        ((⟨e.token, e.postings⟩ : PRec) :: remRecs rest.val files) :=
      h1.append_right files.flatten
    have h3 := inv.hperm.trans (h2.append_left consumed)
    have heq : (consumed ++ [(⟨e.token, e.postings⟩ : PRec)]) ++ remRecs rest.val files =
        consumed ++ (⟨e.token, e.postings⟩ : PRec) :: remRecs rest.val files := by
      simp
    rw [heq]
    exact h3
  refine ⟨hperm2, fun x hx => inv.hidx x (hmemr x hx), (List.nodup_cons.mp hnod).2,
    fun x hx => inv.hfileLB x (hmemr x hx), ?_, inv.hsorted, hout2, ?_, ?_⟩
  · intro i hi hne
    rcases inv.hcover i hi hne with ⟨x, hx, hxi⟩
    rcases List.mem_cons.mp (hP.mem_iff.mp hx) with rfl | hx'
    · exact absurd (hxi ▸ hfa) hne
    · exact ⟨x, hx', hxi⟩
  · intro h
    exact absurd h (stepCur_ne_none cur e)
  · intro t2 m2 h
    exact hcur2 t2 m2 h

/-- One loop iteration that reads and pushes the next record of the popped
entry's file preserves the invariant. -/
theorem inv_step_cons {allRecs consumed : List PRec} {heap : List HeapEntry}
    {files : List (List PRec)} {cur : Option (String × PMap)} {out : List PRec}
    (inv : MergeInv allRecs consumed heap files cur out)
    {e : HeapEntry} {rest : {r : List HeapEntry // r.length + 1 = heap.length}}
    (hp : popMin heap = some (e, rest))
    {r : PRec} {rs : List PRec}
    (hfa : fileAt files e.idx = r :: rs) :
    MergeInv allRecs (consumed ++ [⟨e.token, e.postings⟩])
      (rest.val ++ [⟨r.token, e.idx, r.postings⟩]) (files.set e.idx rs)
      (stepCur cur e) (stepOut cur e out) := by
  have hP := popMin_perm hp
  have hmin := popMin_min hp
  have hemem : e ∈ heap := hP.mem_iff.mpr (List.mem_cons_self _ _)
  have hmemr : ∀ x ∈ rest.val, x ∈ heap := fun x hx => hP.mem_iff.mpr (List.mem_cons_of_mem _ hx)
  have hrlb : e.token ≤ r.token := inv.hfileLB e hemem r (hfa ▸ List.mem_cons_self r rs)
  have hilt : e.idx < files.length := inv.hidx e hemem
  have hlb2 : ∀ x ∈ rest.val ++ [⟨r.token, e.idx, r.postings⟩], e.token ≤ x.token := by
    intro x hx
    rcases List.mem_append.mp hx with hx | hx
    · exact entryLE_token (hmin x (hmemr x hx))
    · rcases List.mem_singleton.mp hx with rfl
      exact hrlb
  obtain ⟨hout2, hcur2⟩ := step_cur_out inv hemem hmin hlb2
  have hidxperm : (heap.map HeapEntry.idx).Perm (e.idx :: rest.val.map HeapEntry.idx) := by
    simpa using hP.map HeapEntry.idx
  have hnod : (e.idx :: rest.val.map HeapEntry.idx).Nodup := hidxperm.nodup_iff.mp inv.hnodupIdx
  have hrsorted : List.Chain' (· ≤ ·) ((r :: rs).map PRec.token) := by
    have hfmem : fileAt files e.idx ∈ files := by
      unfold fileAt
      rw [List.getD_eq_getElem _ _ hilt]
      exact List.getElem_mem _
    exact hfa ▸ inv.hsorted _ hfmem
  have hrsLB : ∀ s ∈ rs, r.token ≤ s.token := by
    intro s hs
    rw [List.map_cons] at hrsorted
    exact head_le_of_chain' hrsorted s.token (List.mem_map_of_mem PRec.token hs)
  have hperm2 : allRecs.Perm ((consumed ++ [⟨e.token, e.postings⟩]) ++
      remRecs (rest.val ++ [⟨r.token, e.idx, r.postings⟩]) (files.set e.idx rs)) := by
    have h1 : (heapRecs heap).Perm ((⟨e.token, e.postings⟩ : PRec) :: heapRecs rest.val) := by
      simpa [heapRecs] using hP.map (fun x => (⟨x.token, x.postings⟩ : PRec))
    have h2 : (remRecs heap files).Perm
        ((⟨e.token, e.postings⟩ : PRec) :: remRecs rest.val files) :=
      h1.append_right files.flatten
    have h3 := inv.hperm.trans (h2.append_left consumed)
    have h4 : (remRecs rest.val files).Perm
        (remRecs (rest.val ++ [⟨r.token, e.idx, r.postings⟩]) (files.set e.idx rs)) := by
      unfold remRecs
      have h5 : files.flatten.Perm (r :: (files.set e.idx rs).flatten) :=
        flatten_set_perm files e.idx r rs hfa
      have h6 : heapRecs (rest.val ++ [⟨r.token, e.idx, r.postings⟩]) =
          heapRecs rest.val ++ [r] := by
        unfold heapRecs
        rw [List.map_append]
        rfl
      have h7 : heapRecs rest.val ++ [r] ++ (files.set e.idx rs).flatten =
          heapRecs rest.val ++ r :: (files.set e.idx rs).flatten := by
        simp
      rw [h6, h7]
      exact h5.append_left (heapRecs rest.val)
    have heq : (consumed ++ [(⟨e.token, e.postings⟩ : PRec)]) ++
        remRecs (rest.val ++ [⟨r.token, e.idx, r.postings⟩]) (files.set e.idx rs) =
        consumed ++ (⟨e.token, e.postings⟩ : PRec) ::
          remRecs (rest.val ++ [⟨r.token, e.idx, r.postings⟩]) (files.set e.idx rs) := by
      simp
    rw [heq]
    exact h3.trans ((h4.cons _).append_left consumed)
  have hnodup2 : ((rest.val ++ [(⟨r.token, e.idx, r.postings⟩ : HeapEntry)]).map HeapEntry.idx).Nodup := by
    rw [List.map_append]
    rw [List.nodup_append]
    refine ⟨(List.nodup_cons.mp hnod).2, List.nodup_singleton _, ?_⟩
    intro k hk hk'
    rcases List.mem_singleton.mp hk' with rfl
    exact (List.nodup_cons.mp hnod).1 hk
  have hidx_ne : ∀ x ∈ rest.val, x.idx ≠ e.idx := by
    intro x hx hc
    exact (List.nodup_cons.mp hnod).1 (hc ▸ List.mem_map_of_mem HeapEntry.idx hx)
  refine ⟨hperm2, ?_, hnodup2, ?_, ?_, ?_, hout2, ?_, ?_⟩
  · intro x hx
    rw [List.length_set]
    rcases List.mem_append.mp hx with hx | hx
    · exact inv.hidx x (hmemr x hx)
    · rcases List.mem_singleton.mp hx with rfl
      exact hilt
  · intro x hx s hs
    rcases List.mem_append.mp hx with hx | hx
    · rw [fileAt_set_ne files e.idx x.idx rs (hidx_ne x hx)] at hs
      exact inv.hfileLB x (hmemr x hx) s hs
    · rcases List.mem_singleton.mp hx with rfl
      rw [fileAt_set_self files e.idx rs hilt] at hs
      exact hrsLB s hs
  · intro i hi hne
    rw [List.length_set] at hi
    by_cases hie : i = e.idx
    · exact ⟨⟨r.token, e.idx, r.postings⟩,
        List.mem_append.mpr (Or.inr (List.mem_singleton_self _)), hie.symm⟩
    · rw [fileAt_set_ne files e.idx i rs hie] at hne
      rcases inv.hcover i hi hne with ⟨x, hx, hxi⟩
      rcases List.mem_cons.mp (hP.mem_iff.mp hx) with rfl | hx'
      · exact absurd hxi.symm hie
      · exact ⟨x, List.mem_append.mpr (Or.inl hx'), hxi⟩
  · intro f hf
    rcases List.mem_or_eq_of_mem_set hf with hf | rfl
    · exact inv.hsorted f hf
    · have := hrsorted
      rw [List.map_cons] at this
      exact this.tail
  · intro h
    exact absurd h (stepCur_ne_none cur e)
  · intro t2 m2 h
    exact hcur2 t2 m2 h

/-- When the heap is empty the loop's final emit produces a correct output. -/
theorem inv_base {allRecs consumed : List PRec} {files : List (List PRec)}
    {cur : Option (String × PMap)} {out : List PRec}
    (inv : MergeInv allRecs consumed [] files cur out) :
    GoodOut allRecs (out ++ emitCur cur) := by
  have hfiles : files.flatten = [] := by
    apply flatten_eq_nil_of_all_nil
    intro i hi
    by_contra hne
    rcases inv.hcover i hi hne with ⟨x, hx, _⟩
    cases hx
  rcases hcur : cur with _ | ⟨t, m⟩
  · obtain ⟨hout0, _⟩ := inv.hnone hcur
    subst hout0
    exact ⟨List.chain'_nil, fun o ho => absurd ho (List.not_mem_nil o)⟩
  · obtain ⟨_, hmok, _, houtlt⟩ := inv.hsome t m hcur
    have hperm2 : allRecs.Perm (consumed ++ ([] : List PRec)) := by
      have h := inv.hperm
      unfold remRecs heapRecs at h
      rw [hfiles] at h
      simpa using h
    have hOK : OutOK allRecs ⟨t, emitMap m⟩ :=
      emit_outOK hmok hperm2 (fun r hr => absurd hr (List.not_mem_nil r))
    rw [emitCur]
    constructor
    · rw [List.map_append]
      apply chain'_append_one _ _ _ inv.hout.1
      intro x hx
      rcases List.mem_map.mp hx with ⟨o, ho, rfl⟩
      exact houtlt o ho
    · intro o ho
      rcases List.mem_append.mp ho with ho | ho
      · exact inv.hout.2 o ho
      · rcases List.mem_singleton.mp ho with rfl
        exact hOK

/-- The merge loop turns any invariant-satisfying state into a correct
output. -/
theorem mergeLoop_good (allRecs : List PRec) :
    ∀ (n : Nat) (heap : List HeapEntry) (files : List (List PRec))
      (cur : Option (String × PMap)) (out : List PRec) (consumed : List PRec),
      heap.length + (files.map List.length).sum ≤ n →
      MergeInv allRecs consumed heap files cur out →
      GoodOut allRecs (mergeLoop heap files cur out) := by
  intro n
  induction n with
  | zero =>
    intro heap files cur out consumed hle inv
    have hheap : heap = [] := by
      cases heap with
      | nil => rfl
      | cons x xs => simp at hle
    subst hheap
    rw [mergeLoop]
    have hpop : popMin ([] : List HeapEntry) = none := rfl
    rw [hpop]
    exact inv_base inv
  | succ n ih =>
    intro heap files cur out consumed hle inv
    rw [mergeLoop]
    rcases hp : popMin heap with _ | ⟨e, rest⟩
    · exact inv_base ((popMin_eq_none.mp hp) ▸ inv)
    · simp only
      split
      · rename_i fs2 heq
        rcases hfa : fileAt files e.idx with _ | ⟨r, rs⟩
        · have hadv := advanceFile_nil files e.idx hfa
          rw [heq] at hadv
          injection hadv with _ hadv2
          subst hadv2
          apply ih rest.val fs2 (stepCur cur e) (stepOut cur e out)
            (consumed ++ [⟨e.token, e.postings⟩])
          · have := rest.property
            omega
          · exact inv_step_nil inv hp hfa
        · have hadv := advanceFile_cons files e.idx r rs hfa
          rw [heq] at hadv
          injection hadv with hadv1
          cases hadv1
      · rename_i r fs2 heq
        rcases hfa : fileAt files e.idx with _ | ⟨r', rs⟩
        · have hadv := advanceFile_nil files e.idx hfa
          rw [heq] at hadv
          injection hadv with hadv1
          cases hadv1
        · have hadv := advanceFile_cons files e.idx r' rs hfa
          rw [heq] at hadv
          injection hadv with hadv1 hadv2
          injection hadv1 with hadv1
          subst hadv1
          subst hadv2
          apply ih (rest.val ++ [(⟨r.token, e.idx, r.postings⟩ : HeapEntry)]) (files.set e.idx rs)
            (stepCur cur e) (stepOut cur e out) (consumed ++ [⟨e.token, e.postings⟩])
          · have h1 := rest.property
            have h2 := (advanceFile files e.idx).property
            rw [heq] at h2
            simp only at h2
            simp only [List.length_append, List.length_cons, List.length_nil]
            omega
          · exact inv_step_cons inv hp hfa

/-- Bounds on the file indices of the initial heap entries. -/
theorem init_mem_bounds : ∀ (fs : List (List PRec)) (i : Nat) (e : HeapEntry),
    e ∈ initHeapFrom i fs → i ≤ e.idx ∧ e.idx < i + fs.length := by
  intro fs
  induction fs with
  | nil => intro i e h; rw [initHeapFrom] at h; cases h
  | cons f fs ih =>
    intro i e h
    cases f with
    | nil =>
      rw [initHeapFrom] at h
      have hb := ih (i + 1) e h
      refine ⟨by omega, ?_⟩
      simp only [List.length_cons]
      omega
    | cons r rs =>
      rw [initHeapFrom] at h
      rcases List.mem_cons.mp h with rfl | h
      · refine ⟨le_refl _, ?_⟩
        simp only [List.length_cons]
        show i < i + (fs.length + 1)
        omega
      · have hb := ih (i + 1) e h
        refine ⟨by omega, ?_⟩
        simp only [List.length_cons]
        omega

/-- The initial heap holds at most one entry per file. -/
theorem init_idx_nodup : ∀ (fs : List (List PRec)) (i : Nat),
    ((initHeapFrom i fs).map HeapEntry.idx).Nodup := by
  intro fs
  induction fs with
  | nil => intro i; rw [initHeapFrom]; exact List.nodup_nil
  | cons f fs ih =>
    intro i
    cases f with
    | nil => rw [initHeapFrom]; exact ih (i + 1)
    | cons r rs =>
      rw [initHeapFrom]
      rw [List.map_cons, List.nodup_cons]
      refine ⟨?_, ih (i + 1)⟩
      intro hmem
      rcases List.mem_map.mp hmem with ⟨e, he, hei⟩
      have hb := init_mem_bounds fs (i + 1) e he
      have hei2 : e.idx = i := hei
      omega

/-- Each initial heap entry is the head record of its file. -/
theorem init_mem_src : ∀ (fs : List (List PRec)) (i : Nat) (e : HeapEntry),
    e ∈ initHeapFrom i fs →
    ∃ rs, fs.getD (e.idx - i) [] = ⟨e.token, e.postings⟩ :: rs := by
  intro fs
  induction fs with
  | nil => intro i e h; rw [initHeapFrom] at h; cases h
  | cons f fs ih =>
    intro i e h
    cases f with
    | nil =>
      rw [initHeapFrom] at h
      have hb := init_mem_bounds fs (i + 1) e h
      rcases ih (i + 1) e h with ⟨rs, hrs⟩
      refine ⟨rs, ?_⟩
      have hgt : e.idx - i = (e.idx - (i + 1)) + 1 := by omega
      rw [hgt]
      simpa using hrs
    | cons r rs0 =>
      rw [initHeapFrom] at h
      rcases List.mem_cons.mp h with rfl | h
      · refine ⟨rs0, ?_⟩
        show ((r :: rs0) :: fs).getD (i - i) [] = (⟨r.token, r.postings⟩ : PRec) :: rs0
        rw [Nat.sub_self]
        rfl
      · have hb := init_mem_bounds fs (i + 1) e h
        rcases ih (i + 1) e h with ⟨rs, hrs⟩
        refine ⟨rs, ?_⟩
        have hgt : e.idx - i = (e.idx - (i + 1)) + 1 := by omega
        rw [hgt]
        simpa using hrs

/-- Every nonempty file contributes an initial heap entry. -/
theorem init_cover : ∀ (fs : List (List PRec)) (i j : Nat),
    j < fs.length → fileAt fs j ≠ [] →
    ∃ e ∈ initHeapFrom i fs, e.idx = i + j := by
  intro fs
  induction fs with
  | nil => intro i j hj; simp at hj
  | cons f fs ih =>
    intro i j hj hne
    cases j with
    | zero =>
      cases f with
      | nil => exact absurd rfl hne
      | cons r rs =>
        refine ⟨⟨r.token, i, r.postings⟩, ?_, ?_⟩
        · rw [initHeapFrom]; exact List.mem_cons_self _ _
        · show i = i + 0
          omega
    | succ j =>
      have hj2 : j < fs.length := by simpa using hj
      have hne2 : fileAt fs j ≠ [] := by simpa [fileAt] using hne
      rcases ih (i + 1) j hj2 hne2 with ⟨e, he, hei⟩
      cases f with
      | nil =>
        refine ⟨e, ?_, by omega⟩
        rw [initHeapFrom]; exact he
      | cons r rs =>
        refine ⟨e, ?_, by omega⟩
        rw [initHeapFrom]; exact List.mem_cons_of_mem _ he

/-- The records of the files split exactly into initial heap entries plus
advanced files. -/
theorem init_perm : ∀ (fs : List (List PRec)) (i : Nat),
    fs.flatten.Perm
      (heapRecs (initHeapFrom i fs) ++ (fs.map (fun f => f.drop 1)).flatten) := by
  intro fs
  induction fs with
  | nil => intro i; rw [initHeapFrom]; simp [heapRecs]
  | cons f fs ih =>
    intro i
    cases f with
    | nil =>
      rw [initHeapFrom]
      simpa using ih (i + 1)
    | cons r rs =>
      rw [initHeapFrom]
      have h2 : (rs ++ fs.flatten).Perm
          (heapRecs (initHeapFrom (i + 1) fs) ++
            (rs ++ (fs.map (fun f => f.drop 1)).flatten)) := by
        refine ((ih (i + 1)).append_left rs).trans ?_
        rw [← List.append_assoc, ← List.append_assoc]
        exact List.perm_append_comm.append_right _
      exact h2.cons r

/-- getD at an in-range position is a member. -/
theorem getD_mem : ∀ (l : List (List PRec)) (n : Nat),
    n < l.length → l.getD n [] ∈ l
  | [], n, h => by simp at h
  | x :: xs, 0, _ => List.mem_cons_self _ _
  | x :: xs, n + 1, h => by
    rw [List.getD_cons_succ]
    exact List.mem_cons_of_mem _ (getD_mem xs n (by simpa using h))

/-- Reading a file of the advanced file list reads the tail. -/
theorem fileAt_map_drop : ∀ (files : List (List PRec)) (j : Nat),
    fileAt (files.map (fun f => f.drop 1)) j = (fileAt files j).drop 1
  | [], j => by
    unfold fileAt
    rw [List.getD_eq_default, List.getD_eq_default] <;> simp
  | f :: fs, 0 => rfl
  | f :: fs, j + 1 => by
    simpa [fileAt] using fileAt_map_drop fs j

/-- The state entering the merge loop satisfies the invariant. -/
theorem initial_inv (files : List (List PRec))
    (hsorted : ∀ f ∈ files, List.Chain' (· ≤ ·) (f.map PRec.token)) :
    MergeInv files.flatten [] (initHeapFrom 0 files)
      (files.map (fun f => f.drop 1)) none [] := by
  refine ⟨?_, ?_, ?_, ?_, ?_, ?_, ?_, ?_, ?_⟩
  · show files.flatten.Perm
      ([] ++ remRecs (initHeapFrom 0 files) (files.map (fun f => f.drop 1)))
    rw [List.nil_append]
    exact init_perm files 0
  · intro e he
    have hb := init_mem_bounds files 0 e he
    rw [List.length_map]
    omega
  · exact init_idx_nodup files 0
  · intro e he r hr
    have hb := init_mem_bounds files 0 e he
    rcases init_mem_src files 0 e he with ⟨rs, hrs⟩
    rw [Nat.sub_zero] at hrs
    rw [fileAt_map_drop files e.idx] at hr
    have hfa : fileAt files e.idx = ⟨e.token, e.postings⟩ :: rs := hrs
    rw [hfa] at hr
    simp only [List.drop_one, List.tail_cons] at hr
    have hmem : files.getD e.idx [] ∈ files := getD_mem files e.idx (by omega)
    have hch := hsorted _ hmem
    rw [hrs, List.map_cons] at hch
    have hp := List.chain'_iff_pairwise.mp hch
    have hle := (List.pairwise_cons.mp hp).1 r.token (List.mem_map_of_mem _ hr)
    exact hle
  · intro i hi hne
    rw [List.length_map] at hi
    rw [fileAt_map_drop] at hne
    have hne2 : fileAt files i ≠ [] := by
      intro h; rw [h] at hne; exact hne rfl
    rcases init_cover files 0 i hi hne2 with ⟨e, he, hei⟩
    exact ⟨e, he, by omega⟩
  · intro f hf
    rcases List.mem_map.mp hf with ⟨g, hg, rfl⟩
    rw [List.map_drop, List.drop_one]
    exact (hsorted g hg).tail
  · exact ⟨List.chain'_nil, fun o ho => absurd ho (List.not_mem_nil o)⟩
  · intro _
    exact ⟨rfl, rfl⟩
  · intro t m h
    cases h

/-- C3: for every collection of partial index files each sorted ascending by
token, merge_partial_indexes writes the final index in strictly ascending
token order; within each line the postings are strictly ascending by docid
(hence each docid appears at most once), and each posting's tf and fields
are the sum, respectively the union, of the contributions of all partials
to that (token, docid) pair. -/
theorem C3_merge_partial_indexes_correct (files : List (List PRec))
    (hsorted : ∀ f ∈ files, List.Chain' (· ≤ ·) (f.map PRec.token)) :
    List.Chain' (· < ·) ((mergePartialIndexes files).map PRec.token) ∧
    ∀ o ∈ mergePartialIndexes files,
      List.Chain' (· < ·) (o.postings.map MPost.docid) ∧
      (o.postings.map MPost.docid).Nodup ∧
      ∀ p ∈ o.postings,
        p.tf = tfContrib files.flatten o.token p.docid ∧
        p.fields = fieldsContrib files.flatten o.token p.docid := by
  have hinv := initial_inv files hsorted
  have hg := mergeLoop_good files.flatten
    ((initHeapFrom 0 files).length +
      (((files.map (fun f => f.drop 1)).map List.length).sum))
    (initHeapFrom 0 files) (files.map (fun f => f.drop 1)) none [] []
    (le_refl _) hinv
  obtain ⟨h1, h2⟩ := hg
  refine ⟨h1, ?_⟩
  intro o ho
  obtain ⟨hc, hp⟩ := h2 o ho
  refine ⟨hc, ?_, hp⟩
  have hpw := List.chain'_iff_pairwise.mp hc
  exact hpw.imp (fun h => Nat.ne_of_lt h)

/-- Witness: the merge-correctness theorem applied to two concrete sorted
partial files. -/
theorem C3_merge_partial_indexes_witness :
    (∀ f ∈ ([[⟨"a", [⟨1, 2, {"body"}⟩]⟩, ⟨"b", [⟨2, 1, {"title"}⟩]⟩],
        [⟨"a", [⟨2, 3, {"body"}⟩]⟩]] : List (List PRec)),
      List.Chain' (· ≤ ·) (f.map PRec.token)) ∧
    (List.Chain' (· < ·)
      ((mergePartialIndexes [[⟨"a", [⟨1, 2, {"body"}⟩]⟩, ⟨"b", [⟨2, 1, {"title"}⟩]⟩],
        [⟨"a", [⟨2, 3, {"body"}⟩]⟩]]).map PRec.token) ∧
    ∀ o ∈ mergePartialIndexes [[⟨"a", [⟨1, 2, {"body"}⟩]⟩, ⟨"b", [⟨2, 1, {"title"}⟩]⟩],
        [⟨"a", [⟨2, 3, {"body"}⟩]⟩]],
      List.Chain' (· < ·) (o.postings.map MPost.docid) ∧
      (o.postings.map MPost.docid).Nodup ∧
      ∀ p ∈ o.postings,
        p.tf = tfContrib ([[⟨"a", [⟨1, 2, {"body"}⟩]⟩, ⟨"b", [⟨2, 1, {"title"}⟩]⟩],
          [⟨"a", [⟨2, 3, {"body"}⟩]⟩]] : List (List PRec)).flatten o.token p.docid ∧
        p.fields = fieldsContrib ([[⟨"a", [⟨1, 2, {"body"}⟩]⟩, ⟨"b", [⟨2, 1, {"title"}⟩]⟩],
          [⟨"a", [⟨2, 3, {"body"}⟩]⟩]] : List (List PRec)).flatten o.token p.docid) := by
  have hs : ∀ f ∈ ([[⟨"a", [⟨1, 2, {"body"}⟩]⟩, ⟨"b", [⟨2, 1, {"title"}⟩]⟩],
      [⟨"a", [⟨2, 3, {"body"}⟩]⟩]] : List (List PRec)),
      List.Chain' (· ≤ ·) (f.map PRec.token) := by
    intro f hf
    simp only [List.mem_cons, List.not_mem_nil, or_false] at hf
    rcases hf with rfl | rfl
    · show List.Chain' (· ≤ ·) ["a", "b"]
      refine List.chain'_cons.mpr ⟨?_, List.chain'_singleton _⟩
      rw [String.le_iff_toList_le]
      decide
    · show List.Chain' (· ≤ ·) ["a"]
      exact List.chain'_singleton _
  exact ⟨hs, C3_merge_partial_indexes_correct _ hs⟩

/-- C7: counterexample — a partial file holding the pair (token "t", docid 1)
in two postings is merged without any error path: merge_partial_indexes has
no invariant check at all, and the two postings are silently combined into
one (tf summed, fields unioned) by the posting-map accumulation, instead of
the claimed fatal abort. -/
theorem C7_duplicate_pair_counterexample :
    mergePartialIndexes [[⟨"t", [⟨1, 2, {"body"}⟩, ⟨1, 3, {"title"}⟩]⟩]] =
      [⟨"t", [⟨1, 5, {"body", "title"}⟩]⟩] := by
  simp [mergePartialIndexes, initHeapFrom, mergeLoop, popMin, advanceFile,
    stepCur, stepOut, emitCur, addPostings, addPosting, emitMap, sortAscBy,
    lookupM, List.insertionSort, List.orderedInsert]
  decide

/-- C7 (amended): the merge never aborts on a duplicate (token, docid) pair
within one partial; the duplicate postings are silently combined into a
single posting whose tf is the sum and whose fields are the union. -/
theorem C7_duplicate_pair_combined (t : String) (d tf1 tf2 : Nat)
    (f1 f2 : Finset String) :
    mergePartialIndexes [[⟨t, [⟨d, tf1, f1⟩, ⟨d, tf2, f2⟩]⟩]] =
      [⟨t, [⟨d, tf1 + tf2, f1 ∪ f2⟩]⟩] := by
  simp [mergePartialIndexes, initHeapFrom, mergeLoop, popMin, advanceFile,
    stepCur, stepOut, emitCur, addPostings, addPosting, emitMap, sortAscBy,
    lookupM, List.insertionSort, List.orderedInsert]
